import Mathlib

/-!
# Formal model of the vexlake core (crates/vexlake-core)

A shallow embedding of the Rust sources of the `vexlake` repository:

* `src/crates/vexlake-core/src/vector.rs`   — vector math kernel and brute-force top-K
* `src/crates/vexlake-core/src/index/hnsw.rs` — the HNSW graph index
* `src/crates/vexlake-core/src/storage/metadata.rs` — versioned metadata catalogue
* `src/crates/vexlake-core/src/storage/parquet.rs`  — columnar batch construction

Modelling conventions:

* `u64` ids and version numbers are modelled as `ℕ` (the code only compares ids
  for equality and never performs wrap-around arithmetic on them).
* `f32`/`f64` vector components are modelled as `Q`.  The square root used by
  `cosine_similarity` is modelled by `sqrtQ`, which agrees with the real square
  root on perfect squares; all concrete inputs used in witnesses and
  counterexamples are chosen with perfect-square norms, so every concrete
  distance computed here is exactly the value the real-number semantics gives.
  Universal (all-input) theorems below do not depend on `sqrtQ` being a square
  root at all — they are facts about the algorithm for any distance values.
* For the NaN-sensitivity claim about `brute_force_topk` a second scalar model
  `F32` with an explicit NaN element and IEEE NaN-propagation is used.
* Rust functions that can panic are modelled with an explicit `panicked`
  outcome (`Outcome`), and `Result<T, Error>` is modelled with `Outcome`/`Except`.
* `HashMap<u64, HnswNode>` is modelled as an association list with
  `List.lookup` semantics; the code never iterates over the map, so the list
  order is unobservable.  `HashSet<u64>` (the visited set) is modelled as a
  `List ℕ` used only for membership tests.
-/

namespace Vexlake

/-- Error taxonomy, from `src/crates/vexlake-core/src/error.rs`.  Variants whose
payload carries an external library error (`opendal`, `arrow`, `serde_json`,
`anyhow`) are modelled without payload; `DimensionMismatch` carries
`expected` and `actual` exactly as in the source. -/
inductive Err where
  | Storage : Err
  | Arrow : Err
  | Serialization : Err
  | IndexErr : String → Err
  | DimensionMismatch : (expected : ℕ) → (actual : ℕ) → Err
  | NotFound : String → Err
  | InvalidConfig : String → Err
  | Ffi : String → Err
  | Bincode : Err
  | Other : Err
  deriving DecidableEq, Repr

/-- Result of a Rust call that may return `Ok`, return `Err`, or panic
(`unwrap`/`expect` on `None`).  A panic produces no new state. -/
inductive Outcome (α : Type) where
  | ok : α → Outcome α
  | err : Err → Outcome α
  | panicked : Outcome α
  deriving DecidableEq, Repr

instance {ε α : Type} [DecidableEq ε] [DecidableEq α] :
    DecidableEq (Except ε α) := fun x y =>
  match x, y with
  | .ok a, .ok b =>
    if h : a = b then .isTrue (by rw [h]) else .isFalse (by simp [h])
  | .error a, .error b =>
    if h : a = b then .isTrue (by rw [h]) else .isFalse (by simp [h])
  | .ok _, .error _ => .isFalse (by simp)
  | .error _, .ok _ => .isFalse (by simp)

/-! ## Exact-fraction scalars

`f32` values are modelled as exact fractions.  A bespoke fraction type is
used instead of Mathlib's `ℚ` so that every arithmetic operation reduces
inside the kernel (Mathlib's `Rat` normalisation goes through
well-founded-recursion definitions that `decide`/`rfl` cannot evaluate):
numerator and denominator are kept in lowest terms by a fueled Euclid gcd
over kernel-accelerated `ℕ`/`ℤ` primitives. -/

/-- Euclid's algorithm with explicit fuel.  The first argument strictly
decreases every round, so `a + 1` units of fuel always suffice and the
fuel-exhausted branch is unreachable for the fuel used below. -/
def gcdFuel : ℕ → ℕ → ℕ → ℕ
  | 0, _, b => b
  | fuel + 1, a, b => if a = 0 then b else gcdFuel fuel (b % a) a

/-- Greatest common divisor (kernel-reducible). -/
def natGcd (a b : ℕ) : ℕ := gcdFuel (a + 1) a b

/-- An exact fraction in lowest terms with positive denominator; all
arithmetic below goes through the normalising constructor `Q.norm`. -/
structure Q where
  num : ℤ
  den : ℕ
  deriving DecidableEq, Repr

instance : Inhabited Q := ⟨⟨0, 1⟩⟩

/-- Normalising constructor for `n / d` (the `d = 0` branch is unreachable in
the guarded code paths below). -/
def Q.norm (n d : ℤ) : Q :=
  if d = 0 then ⟨0, 1⟩
  else
    let n' := if d < 0 then -n else n
    let g := natGcd n'.natAbs d.natAbs
    ⟨n' / (g : ℤ), d.natAbs / g⟩

instance (n : ℕ) : OfNat Q n := ⟨⟨(n : ℤ), 1⟩⟩
instance : Zero Q := ⟨⟨0, 1⟩⟩
instance : One Q := ⟨⟨1, 1⟩⟩
instance : Neg Q := ⟨fun a => ⟨-a.num, a.den⟩⟩
instance : Add Q :=
  ⟨fun a b => Q.norm (a.num * b.den + b.num * a.den) ((a.den : ℤ) * b.den)⟩
instance : Sub Q :=
  ⟨fun a b => Q.norm (a.num * b.den - b.num * a.den) ((a.den : ℤ) * b.den)⟩
instance : Mul Q := ⟨fun a b => Q.norm (a.num * b.num) ((a.den : ℤ) * b.den)⟩
instance : Div Q := ⟨fun a b => Q.norm (a.num * b.den) ((a.den : ℤ) * b.num)⟩
instance : LE Q := ⟨fun a b => a.num * (b.den : ℤ) ≤ b.num * (a.den : ℤ)⟩
instance : LT Q := ⟨fun a b => a.num * (b.den : ℤ) < b.num * (a.den : ℤ)⟩

instance (a b : Q) : Decidable (a ≤ b) :=
  inferInstanceAs (Decidable (a.num * (b.den : ℤ) ≤ b.num * (a.den : ℤ)))

instance (a b : Q) : Decidable (a < b) :=
  inferInstanceAs (Decidable (a.num * (b.den : ℤ) < b.num * (a.den : ℤ)))

/-- Value comparison of two fractions, the model of `partial_cmp` on two
non-NaN floats. -/
def cmpQ (a b : Q) : Ordering :=
  if a < b then .lt else if b < a then .gt else .eq

/-- Integer square root by descending search (kernel-reducible; applied only
to small perfect squares in the concrete computations below). -/
def sqrtNatAux : ℕ → ℕ → ℕ
  | 0, _ => 0
  | c + 1, n => if (c + 1) * (c + 1) ≤ n then c + 1 else sqrtNatAux c n

/-- Integer square root. -/
def sqrtNat (n : ℕ) : ℕ := sqrtNatAux n n

/-! ## Vector math kernel (`vector.rs`), exact-fraction model -/

/-- Square root on `Q`, exact on ratios of perfect squares (the only values it
is applied to in concrete computations below). -/
def sqrtQ (x : Q) : Q := ⟨(sqrtNat x.num.toNat : ℤ), sqrtNat x.den⟩

/-- `cosine_similarity` (vector.rs:23-35): `Σ aᵢbᵢ / (‖a‖·‖b‖)`, returning `0`
when either norm is `0`.  The dimension-equality `assert_eq!` is a caller
invariant inside the index (insert/search validate lengths first). -/
def cosine_similarity (a b : List Q) : Q :=
  let dot := (List.zipWith (· * ·) a b).sum
  let norm_a := sqrtQ ((a.map fun x => x * x).sum)
  let norm_b := sqrtQ ((b.map fun x => x * x).sum)
  if norm_a = 0 ∨ norm_b = 0 then 0 else dot / (norm_a * norm_b)

/-! ## Rust `std::collections::BinaryHeap`, faithful array-level model

`search_layer` and the insertion code observe not only the heap's ordering
behaviour (`push`/`pop`/`peek`) but also its *internal array order*, because
`HnswIndex::insert` consumes the result heap with `into_iter().take(m)`
(hnsw.rs:249) and `BinaryHeap::into_iter` yields the backing vector in raw
order (root — the greatest element — first).  We therefore model the heap as
its backing vector together with the exact `sift_up` / `sift_down_to_bottom`
routines of the Rust standard library. -/

/-- A candidate entry: vector id plus distance to the query
(`MinCandidate`/`MaxCandidate` in hnsw.rs share this payload). -/
structure Candidate where
  id : ℕ
  distance : Q
  deriving DecidableEq, Repr, Inhabited

/-- `MaxCandidate` order (hnsw.rs:92-99): greater distance is greater;
`le x y` is `x <= y` of the derived `Ord`. -/
def leMax (x y : Candidate) : Bool := x.distance ≤ y.distance

/-- `MinCandidate` order (hnsw.rs:67-75): the comparison is reversed, so the
heap's "greatest" element is the candidate with the least distance. -/
def leMin (x y : Candidate) : Bool := y.distance ≤ x.distance

/-- `BinaryHeap::sift_up` (hole-based in the Rust source; the resulting array
is the same as repeated parent swaps): bubble the element at `pos` up while it
is strictly greater than its parent.  Structural recursion on a fuel that
dominates the strictly decreasing position: when the fuel runs out the
position is necessarily `0`, where the Rust loop stops anyway, so the fueled
function computes exactly the Rust result. -/
def siftUpAux (le : Candidate → Candidate → Bool) :
    ℕ → List Candidate → ℕ → List Candidate
  | 0, a, _ => a
  | fuel + 1, a, pos =>
    if pos = 0 then a
    else if le (a.getD pos default) (a.getD ((pos - 1) / 2) default) then a
    else
      siftUpAux le fuel
        ((a.set pos (a.getD ((pos - 1) / 2) default)).set ((pos - 1) / 2)
          (a.getD pos default)) ((pos - 1) / 2)

/-- `BinaryHeap::sift_up` from position `pos`. -/
def siftUp (le : Candidate → Candidate → Bool) (a : List Candidate)
    (pos : ℕ) : List Candidate :=
  siftUpAux le pos a pos

/-- `BinaryHeap::push`: append, then sift up from the last position. -/
def heapPush (le : Candidate → Candidate → Bool) (a : List Candidate)
    (x : Candidate) : List Candidate :=
  siftUp le (a ++ [x]) a.length

/-- First phase of `BinaryHeap::sift_down_to_bottom`: move the hole at `pos`
to the bottom of the tree, always descending toward the greater child (the
right child on ties).  Returns the array with the traversed children moved up
and the final hole position (whose slot still holds stale data). -/
def siftDownLoopAux (le : Candidate → Candidate → Bool) :
    ℕ → List Candidate → ℕ → List Candidate × ℕ
  | 0, a, pos => (a, pos)
  | fuel + 1, a, pos =>
    if 2 * pos + 2 < a.length then
      siftDownLoopAux le fuel
        (a.set pos (a.getD
          (if le (a.getD (2 * pos + 1) default) (a.getD (2 * pos + 2) default)
            then 2 * pos + 2 else 2 * pos + 1) default))
        (if le (a.getD (2 * pos + 1) default) (a.getD (2 * pos + 2) default)
          then 2 * pos + 2 else 2 * pos + 1)
    else if 2 * pos + 2 = a.length then
      (a.set pos (a.getD (2 * pos + 1) default), 2 * pos + 1)
    else (a, pos)

/-- The hole-descent loop from `pos`.  The position strictly increases each
round and the loop exits once it passes `a.length`, so `a.length` units of
fuel always suffice: at fuel `0` the position has already passed the end,
where the Rust loop (both guards false) returns the pair unchanged too. -/
def siftDownLoop (le : Candidate → Candidate → Bool) (a : List Candidate)
    (pos : ℕ) : List Candidate × ℕ :=
  siftDownLoopAux le a.length a pos

/-- `BinaryHeap::sift_down_to_bottom(pos)`: take the element at `pos` out,
move the hole to the bottom along greater children, drop the element in and
sift it back up. -/
def siftDown (le : Candidate → Candidate → Bool) (a : List Candidate)
    (pos : ℕ) : List Candidate :=
  let x := a.getD pos default
  let r := siftDownLoop le a pos
  siftUp le (r.1.set r.2 x) r.2

/-- `BinaryHeap::pop`: remove the last element; if the heap is still nonempty
swap it with the root, return the old root and restore the heap shape with
`sift_down_to_bottom(0)`. -/
def heapPop (le : Candidate → Candidate → Bool) (a : List Candidate) :
    Option (Candidate × List Candidate) :=
  match a with
  | [] => none
  | _ :: _ =>
    let item := a.getD (a.length - 1) default
    let rest := a.dropLast
    if rest.isEmpty then some (item, [])
    else some (rest.getD 0 default, siftDown le (rest.set 0 item) 0)

/-! ## HNSW index (`hnsw.rs`) -/

/-- `HnswNode` (hnsw.rs:43-50). -/
structure HnswNode where
  id : ℕ
  vector : List Q
  neighbors : List (List ℕ)
  deriving DecidableEq, Repr, Inhabited

/-- The `HashMap<u64, HnswNode>` node table, as an association list.  The code
only ever calls `get`/`get_mut`/`insert`, never iterates, so only the
`List.lookup` view is observable. -/
abbrev NodeTable := List (ℕ × HnswNode)

/-- `HashMap::insert`: replace the binding if the key is present, else add. -/
def tableInsert (t : NodeTable) (k : ℕ) (v : HnswNode) : NodeTable :=
  if t.any (fun p => p.1 = k) then
    t.map fun p => if p.1 = k then (k, v) else p
  else t ++ [(k, v)]

/-- `HnswConfig` (hnsw.rs:16-27). -/
structure HnswConfig where
  dimension : ℕ
  m : ℕ
  m_max_0 : ℕ
  ef_construction : ℕ
  ml : Q
  deriving DecidableEq, Repr

/-- `HnswIndex` state (hnsw.rs:103-108). -/
structure HnswIndex where
  config : HnswConfig
  nodes : NodeTable
  entry_point : Option ℕ
  max_layer : ℤ
  deriving DecidableEq, Repr

/-- `HnswIndex::new` (hnsw.rs:112-119). -/
def HnswIndex.new (config : HnswConfig) : HnswIndex :=
  { config := config, nodes := [], entry_point := none, max_layer := -1 }

/-- `HnswIndex::get_distance` (hnsw.rs:121-124): `1 − cosine_similarity`.
The Rust code panics (`expect("Node must exist")`) when `target_id` is not in
the table; every call site below reaches only table keys on states built by
`insert`, so the missing-key branch returns a default and the theorems about
built states never depend on it. -/
def get_distance (t : NodeTable) (q : List Q) (target_id : ℕ) : Q :=
  match List.lookup target_id t with
  | some node => 1 - cosine_similarity q node.vector
  | none => 0

/-- One neighbor step of the inner loop of `search_layer` (hnsw.rs:158-180):
state is (visited, candidates heap, found heap). -/
def processNeighbor (t : NodeTable) (q : List Q) (ef : ℕ)
    (st : List ℕ × List Candidate × List Candidate) (nid : ℕ) :
    List ℕ × List Candidate × List Candidate :=
  if nid ∈ st.1 then st
  else
    match st.2.2.head? with
    | none => (nid :: st.1, st.2.1, st.2.2)
    | some furthest =>
      if get_distance t q nid < furthest.distance ∨ st.2.2.length < ef then
        (nid :: st.1,
          heapPush leMin st.2.1 ⟨nid, get_distance t q nid⟩,
          if ef <
              (heapPush leMax st.2.2 ⟨nid, get_distance t q nid⟩).length then
            match heapPop leMax
                (heapPush leMax st.2.2 ⟨nid, get_distance t q nid⟩) with
            | some r => r.2
            | none => heapPush leMax st.2.2 ⟨nid, get_distance t q nid⟩
          else heapPush leMax st.2.2 ⟨nid, get_distance t q nid⟩)
      else (nid :: st.1, st.2.1, st.2.2)

/-- The `while let Some(current) = candidates.pop()` loop of `search_layer`
(hnsw.rs:150-183), with explicit fuel.  Each iteration pops one candidate, and
every push is paired with a fresh insertion into `visited`, so on well-formed
states `t.length + 2` units of fuel are never exhausted. -/
def searchLayerLoop (t : NodeTable) (q : List Q) (ef layer : ℕ) :
    ℕ → List ℕ → List Candidate → List Candidate → List Candidate
  | 0, _, _, found => found
  | fuel + 1, visited, cands, found =>
    match heapPop leMin cands with
    | none => found
    | some (current, cands) =>
      match found.head? with
      | none => found
      | some furthest =>
        if furthest.distance < current.distance then found
        else
          match List.lookup current.id t with
          | none => searchLayerLoop t q ef layer fuel visited cands found
          | some node =>
            if layer < node.neighbors.length then
              let st := (node.neighbors.getD layer []).foldl
                (processNeighbor t q ef) (visited, cands, found)
              searchLayerLoop t q ef layer fuel st.1 st.2.1 st.2.2
            else searchLayerLoop t q ef layer fuel visited cands found

/-- `HnswIndex::search_layer` (hnsw.rs:127-186).  Returns the final
`found_neighbors` heap — as its backing array, since the caller consumes it
with `into_iter` (raw array order) or drains and re-sorts. -/
def searchLayer (t : NodeTable) (q : List Q) (ep : ℕ) (ef layer : ℕ) :
    List Candidate :=
  searchLayerLoop t q ef layer (t.length + 2) [ep]
    (heapPush leMin [] ⟨ep, get_distance t q ep⟩)
    (heapPush leMax [] ⟨ep, get_distance t q ep⟩)

/-- One pass of the greedy zoom-in loop (hnsw.rs:216-230 and 325-339): the
node of the entry point at the start of the pass is fixed, and its layer-`l`
neighbor list is scanned, moving to any strictly closer neighbor. -/
def zoomPass (t : NodeTable) (q : List Q) (l : ℕ) (st : ℕ × Q) :
    (ℕ × Q) × Bool :=
  match List.lookup st.1 t with
  | none => (st, false)
  | some node =>
    if l < node.neighbors.length then
      (node.neighbors.getD l []).foldl
        (fun acc nid =>
          let d := get_distance t q nid
          if d < acc.1.2 then ((nid, d), true) else acc)
        (st, false)
    else (st, false)

/-- The `while changed` greedy loop at one layer, with fuel: every pass that
reports a change strictly decreases the current distance, so the number of
changing passes is bounded by the number of nodes. -/
def zoomLoop (t : NodeTable) (q : List Q) (l : ℕ) :
    ℕ → ℕ × Q → ℕ × Q
  | 0, st => st
  | fuel + 1, st =>
    let r := zoomPass t q l st
    if r.2 then zoomLoop t q l fuel r.1 else r.1

/-- Greedy zoom-in at one layer with the standard fuel. -/
def zoomAt (t : NodeTable) (q : List Q) (l : ℕ) (st : ℕ × Q) : ℕ × Q :=
  zoomLoop t q l (t.length + 2) st

/-- Descending layer list `[hi, hi-1, …, lo]` (empty when `hi < lo`),
modelling `(lo..=hi).rev()`. -/
def descRange (lo hi : ℕ) : List ℕ := (List.range' lo (hi + 1 - lo)).reverse

/-- The layers visited by the greedy zoom-in of `insert`
(`(level + 1..=max_layer).rev()`, hnsw.rs:215). -/
def zoomLayers (level : ℕ) (maxL : ℤ) : List ℕ :=
  if (level : ℤ) + 1 ≤ maxL then descRange (level + 1) maxL.toNat else []

/-- The layers of the layered-insertion loop
(`(0..=min(level, max_layer)).rev()`, hnsw.rs:240). -/
def insertLayers (level : ℕ) (maxL : ℤ) : List ℕ :=
  if 0 ≤ min (level : ℤ) maxL then descRange 0 (min (level : ℤ) maxL).toNat
  else []

/-- Stable ascending insertion by the `Q` sort key, modelling
`Vec::sort_by(|a, b| a.1.partial_cmp(&b.1).unwrap_or(Equal))`
(hnsw.rs:282) — a stable sort under a total key order. -/
def insertByKey (x : ℕ × Q) : List (ℕ × Q) → List (ℕ × Q)
  | [] => [x]
  | y :: ys => if y.2 ≤ x.2 ∧ ¬ x.2 ≤ y.2 then y :: insertByKey x ys
      else x :: y :: ys

/-- Stable sort of `(id, distance)` pairs by ascending distance. -/
def sortByKey (l : List (ℕ × Q)) : List (ℕ × Q) :=
  l.foldr insertByKey []

/-- The over-degree prune of a neighbor's list (hnsw.rs:267-284): rank the
list (which now includes the freshly inserted id) by distance to the
neighbor's own vector, ascending, keep the closest `m`.  The Rust code looks
every listed id up with `self.nodes.get(&cid).unwrap()`; the freshly inserted
id is **not yet** in the table at this point, so the lookup panics (`none`
here) unless the id was already present (a re-insert). -/
def shrinkConnections (t : NodeTable) (nvec : List Q) (conns : List ℕ)
    (m : ℕ) : Option (List ℕ) :=
  (conns.mapM fun cid =>
    (List.lookup cid t).map fun node =>
      (cid, 1 - cosine_similarity nvec node.vector)).map
    fun connections => ((sortByKey connections).take m).map (·.1)

/-- The update of one selected neighbor's layer-`l` list (hnsw.rs:255-286):
skip neighbors whose node has no layer `l`; append the new id; prune when the
list now exceeds `m` (which panics on a fresh insert, see
`shrinkConnections`).  Returns `none` for a panic, `some none` for the
`continue` case, `some (some list)` for a computed update. -/
def updateNeighbor (t : NodeTable) (id : ℕ) (m l : ℕ) (neighbor_id : ℕ) :
    Option (Option (List ℕ)) :=
  match List.lookup neighbor_id t with
  | none => none
  | some node =>
    if l < node.neighbors.length then
      if m < (node.neighbors.getD l [] ++ [id]).length then
        (shrinkConnections t node.vector
          (node.neighbors.getD l [] ++ [id]) m).map some
      else some (some (node.neighbors.getD l [] ++ [id]))
    else some none

/-- One layer of the layered-insertion loop (hnsw.rs:240-296).  State:
current entry point, the new node's neighbor lists so far, and the node
table.  `none` models a panic inside the prune. -/
def insertLayerStep (cfg : HnswConfig) (id : ℕ) (vector : List Q)
    (st : ℕ × List (List ℕ) × NodeTable) (l : ℕ) :
    Option (ℕ × List (List ℕ) × NodeTable) :=
  let curr_ep := st.1
  let newNbrs := st.2.1
  let t := st.2.2
  let candidates := searchLayer t vector curr_ep cfg.ef_construction l
  let m := if l = 0 then cfg.m_max_0 else cfg.m
  let neighbor_ids := (candidates.take m).map (·.id)
  let newNbrs := newNbrs.set l neighbor_ids
  let updates := neighbor_ids.mapM fun nid =>
    (updateNeighbor t id m l nid).map fun u => (nid, u)
  updates.map fun updates =>
    let t := updates.foldl
      (fun t u =>
        match u.2 with
        | none => t
        | some nbs =>
          match List.lookup u.1 t with
          | none => t
          | some node =>
            tableInsert t u.1 { node with neighbors := node.neighbors.set l nbs })
      t
    let curr_ep := match neighbor_ids.head? with
      | some closest => closest
      | none => curr_ep
    (curr_ep, newNbrs, t)

/-- `HnswIndex.insert` (hnsw.rs:189-306), with the randomly drawn layer
passed in explicitly (`level = generate_random_layer()`, which is ≥ 0; see
`generate_random_layer` below for its model over `ℝ`). -/
def HnswIndex.insert (s : HnswIndex) (id : ℕ) (vector : List Q)
    (level : ℕ) : Outcome HnswIndex :=
  if vector.length ≠ s.config.dimension then
    .err (.DimensionMismatch s.config.dimension vector.length)
  else
    match s.entry_point with
    | none =>
      .ok { s with
        nodes := tableInsert s.nodes id
          { id := id, vector := vector, neighbors := List.replicate (level + 1) [] }
        entry_point := some id
        max_layer := (level : ℤ) }
    | some ep0 =>
      let d0 := get_distance s.nodes vector ep0
      let zoomed := (zoomLayers level s.max_layer).foldl
        (fun st l => zoomAt s.nodes vector l st) (ep0, d0)
      let start : ℕ × List (List ℕ) × NodeTable :=
        (zoomed.1, List.replicate (level + 1) [], s.nodes)
      match (insertLayers level s.max_layer).foldlM
          (insertLayerStep s.config id vector) start with
      | none => .panicked
      | some (_, newNbrs, t) =>
        let node : HnswNode := { id := id, vector := vector, neighbors := newNbrs }
        let s' := { s with nodes := tableInsert t id node }
        if s.max_layer < (level : ℤ) then
          .ok { s' with max_layer := (level : ℤ), entry_point := some id }
        else
          .ok s'

/-- A recorded sequence of inserts: `(id, vector, drawn level)` triples. -/
abbrev InsertOps := List (ℕ × List Q × ℕ)

/-- Run a sequence of inserts, propagating errors and panics. -/
def insertAll (s : HnswIndex) : InsertOps → Outcome HnswIndex
  | [] => .ok s
  | op :: ops =>
    match s.insert op.1 op.2.1 op.2.2 with
    | .ok s' => insertAll s' ops
    | .err e => .err e
    | .panicked => .panicked

/-- `SearchResult` (vector.rs:84-89), rational-score model. -/
structure SearchResult where
  id : ℕ
  score : Q
  deriving DecidableEq, Repr

/-- Stable descending insertion by score, modelling
`results.sort_by(|a, b| b.score.partial_cmp(&a.score).unwrap_or(Equal))`
(hnsw.rs:348) — a stable sort under a total key order. -/
def insertByScore (x : SearchResult) : List SearchResult → List SearchResult
  | [] => [x]
  | y :: ys => if x.score ≤ y.score ∧ ¬ y.score ≤ x.score then
      y :: insertByScore x ys
    else x :: y :: ys

/-- Stable sort of search results by descending score. -/
def sortByScoreDesc (l : List SearchResult) : List SearchResult :=
  l.foldr insertByScore []

/-- `HnswIndex::search` (hnsw.rs:309-352). -/
def HnswIndex.search (s : HnswIndex) (query : List Q) (k ef : ℕ) :
    Except Err (List SearchResult) :=
  if query.length ≠ s.config.dimension then
    .error (.DimensionMismatch s.config.dimension query.length)
  else
    match s.entry_point with
    | none => .ok []
    | some ep0 =>
      let d0 := get_distance s.nodes query ep0
      let layers : List ℕ :=
        if 1 ≤ s.max_layer then descRange 1 s.max_layer.toNat else []
      let zoomed := layers.foldl (fun st l => zoomAt s.nodes query l st) (ep0, d0)
      let candidates := searchLayer s.nodes query zoomed.1 (max ef k) 0
      let results := candidates.map fun c => SearchResult.mk c.id (1 - c.distance)
      .ok ((sortByScoreDesc results).take k)

/-! ## Layer generation (`generate_random_layer`, hnsw.rs:354-358)

The Rust expression is `(-(r.ln() * self.config.ml).floor()) as i32`: the
floor is applied to `ln(r) · ml` *before* negation.  We model it over `ℝ`
(the rounding of `f64` transcendentals plays no part in the claims, which are
about the discrete formula). -/

/-- `HnswIndex::generate_random_layer` as a function of the uniform draw `r`
and the configured scale `ml`: `-⌊ln r · ml⌋`. -/
noncomputable def generate_random_layer (ml r : ℝ) : ℤ :=
  -⌊Real.log r * ml⌋

/-! ## `f32` with NaN, for the brute-force top-K claim

A scalar is either NaN or a finite rational.  Arithmetic propagates NaN as in
IEEE-754; `==` with NaN is false; `partial_cmp` with NaN is `None`.  Infinite
values and rounding are outside the modelled range — the claim at issue is
purely about NaN handling in the sort comparator. -/

inductive F32 where
  | nan : F32
  | fin : Q → F32
  deriving DecidableEq, Repr

instance : Inhabited F32 := ⟨.fin 0⟩

/-- IEEE addition on the modelled range. -/
def F32.add : F32 → F32 → F32
  | .fin x, .fin y => .fin (x + y)
  | _, _ => .nan

/-- IEEE multiplication on the modelled range. -/
def F32.mul : F32 → F32 → F32
  | .fin x, .fin y => .fin (x * y)
  | _, _ => .nan

/-- IEEE division on the modelled range (a zero divisor would give ±∞ or NaN;
the code's zero-norm early return keeps it unreachable below). -/
def F32.div : F32 → F32 → F32
  | .fin x, .fin y => if y = 0 then .nan else .fin (x / y)
  | _, _ => .nan

/-- `f32::sqrt`, with `sqrtQ` standing in for the finite square root. -/
def F32.sqrt : F32 → F32
  | .fin x => if x < 0 then .nan else .fin (sqrtQ x)
  | .nan => .nan

/-- IEEE equality test against `0.0`: false for NaN. -/
def F32.isZero : F32 → Bool
  | .fin x => x = 0
  | .nan => false

/-- `PartialOrd::partial_cmp` on `f32`: `None` when either side is NaN. -/
def F32.pcmp : F32 → F32 → Option Ordering
  | .fin x, .fin y => some (cmpQ x y)
  | _, _ => none

/-- `iter().sum::<f32>()`: left fold of `+` over `0.0`. -/
def F32.sumList (l : List F32) : F32 := l.foldl F32.add (.fin 0)

/-- `cosine_similarity` (vector.rs:23-35) over the NaN-aware scalars. -/
def cosineSimF (a b : List F32) : F32 :=
  let dot := F32.sumList (List.zipWith F32.mul a b)
  let norm_a := (F32.sumList (a.map fun x => F32.mul x x)).sqrt
  let norm_b := (F32.sumList (b.map fun x => F32.mul x x)).sqrt
  if norm_a.isZero ∨ norm_b.isZero then .fin 0
  else dot.div (norm_a.mul norm_b)

/-- A search result with a possibly-NaN score. -/
structure SearchResultF where
  id : ℕ
  score : F32
  deriving DecidableEq, Repr

/-- One sorted insertion under a fallible comparator; `none` models the
`unwrap()` panic when `partial_cmp` returns `None`. -/
def insertCmpM (cmp : SearchResultF → SearchResultF → Option Ordering)
    (x : SearchResultF) : List SearchResultF → Option (List SearchResultF)
  | [] => some [x]
  | y :: ys =>
    match cmp x y with
    | none => none
    | some o =>
      if o = .gt then (insertCmpM cmp x ys).map (y :: ·)
      else some (x :: y :: ys)

/-- `Vec::sort_by` with a fallible comparator, as a stable insertion sort in
the panic monad.  (Rust's stable sort is a different comparison sort, but on
the two-element counterexample below any comparison sort must invoke the
comparator on the one unordered pair, and `unwrap()` then panics.) -/
def sortByM (cmp : SearchResultF → SearchResultF → Option Ordering)
    (l : List SearchResultF) : Option (List SearchResultF) :=
  l.foldrM (insertCmpM cmp) []

/-- `brute_force_topk` (vector.rs:127-138): map to scores, sort descending
with `b.score.partial_cmp(&a.score).unwrap()` — which panics on a NaN score —
then truncate to `k`.  `brute_force_topk_parallel` (vector.rs:109-124) is the
same computation with a parallel map and the identical panicking comparator,
so this model covers both. -/
def brute_force_topk (query : List F32) (vectors : List (ℕ × List F32))
    (k : ℕ) : Outcome (List SearchResultF) :=
  let results := vectors.map fun p => SearchResultF.mk p.1 (cosineSimF query p.2)
  match sortByM (fun a b => b.score.pcmp a.score) results with
  | none => .panicked
  | some sorted => .ok (sorted.take k)

/-! ## Versioned metadata catalogue (`storage/metadata.rs`)

The object store is modelled as an association list from path to UTF-8 body
(all bodies written by this module are text).  Async suspension points are
invisible to a single client, so the methods are pure functions of the store;
`commit_version` additionally returns its ordered write trace. -/

/-- Object store contents: path ↦ body. -/
abbrev Store := List (String × String)

/-- A single `StorageClient::write` call, in trace order. -/
structure WriteRec where
  path : String
  body : String
  deriving DecidableEq, Repr

/-- `StorageClient::write`: overwrite or create. -/
def storeWrite (st : Store) (path body : String) : Store :=
  if st.any (fun p => p.1 = path) then
    st.map fun p => if p.1 = path then (path, body) else p
  else st ++ [(path, body)]

/-- `StorageClient::exists`. -/
def storeExists (st : Store) (path : String) : Bool :=
  (List.lookup path st).isSome

/-- `StorageClient::read`: a missing object is a storage error. -/
def storeRead (st : Store) (path : String) : Except Err String :=
  match List.lookup path st with
  | some body => .ok body
  | none => .error .Storage

/-- `VersionInfo` (metadata.rs:14-25); the two `HashMap<String, String>`
fields are modelled as association lists. -/
structure VersionInfo where
  version : ℕ
  timestamp : ℕ
  data_files : List (String × String)
  index_files : List (String × String)
  total_vectors : ℕ
  deriving DecidableEq, Repr

/-- `MetadataManager::version_path` (metadata.rs:39-41). -/
def version_path (version : ℕ) : String :=
  "_metadata/version_" ++ Nat.repr version ++ ".json"

/-- `MetadataManager::latest_path` (metadata.rs:44-46). -/
def latest_path : String := "_metadata/latest"

/-- Modelled from the spec: `serde_json::to_vec(&info)` (the `serde_json`
crate is external to the repository).  A concrete JSON rendering following
the manifest schema of §6 of the spec; its only load-bearing property is that
it is a function of `info`. -/
def versionInfoJson (info : VersionInfo) : String :=
  let pairs := fun (l : List (String × String)) =>
    "\x7b" ++ String.intercalate ","
      (l.map fun p => "\"" ++ p.1 ++ "\":\"" ++ p.2 ++ "\"") ++ "\x7d"
  "\x7b\"version\":" ++ Nat.repr info.version ++
    ",\"timestamp\":" ++ Nat.repr info.timestamp ++
    ",\"data_files\":" ++ pairs info.data_files ++
    ",\"index_files\":" ++ pairs info.index_files ++
    ",\"total_vectors\":" ++ Nat.repr info.total_vectors ++ "\x7d"

/-- `MetadataManager::commit_version` (metadata.rs:85-100): encode the
manifest, write it to `version_path`, then overwrite the latest pointer with
the decimal text of the version (`u64::to_string` is `Nat.repr` on the
modelled range).  Returns the new store and the ordered write trace. -/
def commit_version (st : Store) (info : VersionInfo) : Store × List WriteRec :=
  let w1 : WriteRec := ⟨version_path info.version, versionInfoJson info⟩
  let w2 : WriteRec := ⟨latest_path, Nat.repr info.version⟩
  (storeWrite (storeWrite st w1.path w1.body) w2.path w2.body, [w1, w2])

/-- `str::parse::<u64>`: an optional leading `+`, then one or more ASCII
digits, and the value must fit in 64 bits; anything else is a parse error. -/
def parseU64 (s : String) : Option ℕ :=
  let ds := match s.toList with
    | '+' :: rest => rest
    | cs => cs
  if ds.isEmpty ∨ ¬ ds.all Char.isDigit then none
  else
    let v := ds.foldl (fun acc c => acc * 10 + (c.toNat - 48)) 0
    if v < 2 ^ 64 then some v else none

/-- `MetadataManager::get_latest_version_num` (metadata.rs:49-60).  The
`String::from_utf8` step is the identity on the modelled text bodies; a parse
failure surfaces as `Err(Error::Ffi(...))` (payload abstracted). -/
def get_latest_version_num (st : Store) : Except Err ℕ :=
  if ¬ storeExists st latest_path then .ok 0
  else
    match storeRead st latest_path with
    | .error e => .error e
    | .ok content =>
      match parseU64 content.trim with
      | some v => .ok v
      | none => .error (.Ffi "u64 parse error")

/-- The claim's description of `get_latest_version_num`, stated directly over
the store: `0` when the latest pointer is absent, otherwise the
whitespace-trimmed body parsed as base-10 `u64`, with parse failures
surfacing as errors. -/
def get_latest_version_num_spec (st : Store) : Except Err ℕ :=
  match List.lookup latest_path st with
  | none => .ok 0
  | some body =>
    match parseU64 body.trim with
    | some v => .ok v
    | none => .error (.Ffi "u64 parse error")

/-! ## Columnar batch construction (`storage/parquet.rs`) -/

/-- The observable content of the Arrow `RecordBatch` built by
`create_batch`: the id column, the flattened fixed-size-list float buffer,
and the metadata column. -/
structure RecordBatch where
  ids : List ℕ
  vector_values : List Q
  metadata : List (Option String)
  deriving DecidableEq, Repr

/-- The flattening loop of `create_batch` (parquet.rs:60-67): each vector
must have the writer's dimension, and the rows are appended in order into one
contiguous buffer. -/
def flattenVectors (D : ℕ) : List (List Q) → Except Err (List Q)
  | [] => .ok []
  | v :: vs =>
    if v.length ≠ D then .error (.DimensionMismatch D v.length)
    else (flattenVectors D vs).map (v ++ ·)

/-- `ParquetWriter::create_batch` (parquet.rs:48-89).  The trailing Arrow
constructions (`FixedSizeListArray::try_new`, `RecordBatch::try_new`) cannot
fail for a positive dimension once the buffer has exactly `N·D` values and no
null mask, and are modelled as the direct construction. -/
def create_batch (D : ℕ) (ids : List ℕ) (vectors : List (List Q))
    (metadata : List (Option String)) : Except Err RecordBatch :=
  if ids.length ≠ vectors.length ∨ ids.length ≠ metadata.length then
    .error (.InvalidConfig "Input arrays must have same length")
  else
    match flattenVectors D vectors with
    | .error e => .error e
    | .ok flat => .ok ⟨ids, flat, metadata⟩

/-- The claim's description of `create_batch`: equal input lengths or
`InvalidConfig`; every vector of length `D` or `DimensionMismatch`; on
success the row-major flattening. -/
def create_batch_spec (D : ℕ) (ids : List ℕ) (vectors : List (List Q))
    (metadata : List (Option String)) : Except Err RecordBatch :=
  if ids.length ≠ vectors.length ∨ ids.length ≠ metadata.length then
    .error (.InvalidConfig "Input arrays must have same length")
  else
    match vectors.find? (fun v => v.length ≠ D) with
    | some v => .error (.DimensionMismatch D v.length)
    | none => .ok ⟨ids, vectors.flatten, metadata⟩

/-! ## Index serialization (`HnswIndex::serialize`/`deserialize`, hnsw.rs:360-368)

Modelled from the spec: the Rust methods delegate to the external `bincode`
crate ("bijective on valid index states", spec §4.2/§8); `bincode` itself is
not part of the repository, so its encoding is modelled as an explicit
self-delimiting integer-token encoding of every serialized field of
`HnswIndex`, with a total decoder on valid encodings.  (hnsw.rs also maps
encode errors to an `Error::Bincode` variant that `error.rs` does not
declare; the model keeps a payload-free `Bincode` variant for the decode
failure.) -/

/-- Encode a natural number as one token. -/
def encNat (n : ℕ) : List ℤ := [(n : ℤ)]

/-- Decode a natural number. -/
def decNat : List ℤ → Option (ℕ × List ℤ)
  | x :: rest => if 0 ≤ x then some (x.toNat, rest) else none
  | [] => none

/-- Encode an integer as one token. -/
def encInt (i : ℤ) : List ℤ := [i]

/-- Decode an integer. -/
def decInt : List ℤ → Option (ℤ × List ℤ)
  | x :: rest => some (x, rest)
  | [] => none

/-- Encode a rational as numerator and denominator tokens. -/
def encQ (q : Q) : List ℤ := [q.num, (q.den : ℤ)]

/-- Decode a fraction. -/
def decQ : List ℤ → Option (Q × List ℤ)
  | n :: d :: rest => some (⟨n, d.toNat⟩, rest)
  | _ => none

/-- Encode a list as a length token followed by the encoded elements. -/
def encList (enc : α → List ℤ) (l : List α) : List ℤ :=
  encNat l.length ++ l.flatMap enc

/-- Decode exactly `n` elements. -/
def decListAux (dec : List ℤ → Option (α × List ℤ)) :
    ℕ → List ℤ → Option (List α × List ℤ)
  | 0, rest => some ([], rest)
  | n + 1, rest =>
    (dec rest).bind fun p =>
      (decListAux dec n p.2).map fun q => (p.1 :: q.1, q.2)

/-- Decode a length-prefixed list. -/
def decList (dec : List ℤ → Option (α × List ℤ)) (l : List ℤ) :
    Option (List α × List ℤ) :=
  (decNat l).bind fun p => decListAux dec p.1 p.2

/-- Encode an optional value with a presence tag. -/
def encOpt (enc : α → List ℤ) : Option α → List ℤ
  | none => [0]
  | some x => 1 :: enc x

/-- Decode an optional value. -/
def decOpt (dec : List ℤ → Option (α × List ℤ)) :
    List ℤ → Option (Option α × List ℤ)
  | 0 :: rest => some (none, rest)
  | 1 :: rest => (dec rest).map fun p => (some p.1, p.2)
  | _ => none

/-- Encode an `HnswNode`. -/
def encNode (n : HnswNode) : List ℤ :=
  encNat n.id ++ encList encQ n.vector ++ encList (encList encNat) n.neighbors

/-- Decode an `HnswNode`. -/
def decNode (l : List ℤ) : Option (HnswNode × List ℤ) :=
  (decNat l).bind fun i =>
    (decList decQ i.2).bind fun v =>
      (decList (decList decNat) v.2).map fun nb =>
        (⟨i.1, v.1, nb.1⟩, nb.2)

/-- Encode one node-table entry. -/
def encEntry (e : ℕ × HnswNode) : List ℤ := encNat e.1 ++ encNode e.2

/-- Decode one node-table entry. -/
def decEntry (l : List ℤ) : Option ((ℕ × HnswNode) × List ℤ) :=
  (decNat l).bind fun k => (decNode k.2).map fun n => ((k.1, n.1), n.2)

/-- Encode an `HnswConfig`. -/
def encConfig (c : HnswConfig) : List ℤ :=
  encNat c.dimension ++ encNat c.m ++ encNat c.m_max_0 ++
    encNat c.ef_construction ++ encQ c.ml

/-- Decode an `HnswConfig`. -/
def decConfig (l : List ℤ) : Option (HnswConfig × List ℤ) :=
  (decNat l).bind fun d =>
    (decNat d.2).bind fun m =>
      (decNat m.2).bind fun m0 =>
        (decNat m0.2).bind fun ef =>
          (decQ ef.2).map fun ml => (⟨d.1, m.1, m0.1, ef.1, ml.1⟩, ml.2)

/-- Encode a whole `HnswIndex`: every serialized field of the struct. -/
def encIndex (s : HnswIndex) : List ℤ :=
  encConfig s.config ++ encList encEntry s.nodes ++
    encOpt encNat s.entry_point ++ encInt s.max_layer

/-- Decode a whole `HnswIndex`. -/
def decIndex (l : List ℤ) : Option (HnswIndex × List ℤ) :=
  (decConfig l).bind fun c =>
    (decList decEntry c.2).bind fun t =>
      (decOpt decNat t.2).bind fun e =>
        (decInt e.2).map fun ml => (⟨c.1, t.1, e.1, ml.1⟩, ml.2)

/-- `HnswIndex::serialize` under the modelled encoding. -/
def HnswIndex.serializeBytes (s : HnswIndex) : List ℤ := encIndex s

/-- `HnswIndex::deserialize` under the modelled encoding: malformed bytes are
an `Error::Bincode` failure. -/
def HnswIndex.deserializeBytes (b : List ℤ) : Except Err HnswIndex :=
  match decIndex b with
  | some (s, []) => .ok s
  | _ => .error .Bincode

/-! ## State predicates and concrete example states -/

/-- The keys of the node table. -/
def tableKeys (t : NodeTable) : List ℕ := t.map (·.1)

/-- The per-layer out-degree budget: `m_max_0` on layer 0, `m` above. -/
def layerBound (cfg : HnswConfig) (l : ℕ) : ℕ :=
  if l = 0 then cfg.m_max_0 else cfg.m

/-- Every node's neighbor list at every layer respects the degree budget
(spec §3 invariant). -/
def DegreeBounded (s : HnswIndex) : Prop :=
  ∀ p ∈ s.nodes, ∀ l : ℕ,
    (p.2.neighbors.getD l []).length ≤ layerBound s.config l

/-- Every id in every neighbor list is a key of the node table
(spec §3 invariant). -/
def NeighborsClosed (t : NodeTable) : Prop :=
  ∀ p ∈ t, ∀ l : ℕ, ∀ nid ∈ p.2.neighbors.getD l [], nid ∈ tableKeys t

/-- The entry point, when present, is a key of the node table. -/
def EntryOk (s : HnswIndex) : Prop :=
  ∀ e, s.entry_point = some e → e ∈ tableKeys s.nodes

/-- Well-formedness of an index state, as maintained by `insert`. -/
def WellFormed (s : HnswIndex) : Prop :=
  (s.entry_point = none → s.nodes = []) ∧ EntryOk s ∧ NeighborsClosed s.nodes

/-- The invariant carried through the per-layer loop of `insert`, relative to
the key set `K` of the table before the insertion and the id being inserted:
the key set is unchanged, the current entry point is a key, every layer still
to be processed is closed over `K`, every layer is closed over `K` plus the
(not yet inserted) new id, and the new node's lists so far draw only from
`K`. -/
def LayerLoopInv (K : List ℕ) (id : ℕ) (ls : List ℕ)
    (st : ℕ × List (List ℕ) × NodeTable) : Prop :=
  tableKeys st.2.2 = K ∧ st.1 ∈ K ∧
  (∀ l' ∈ ls, ∀ p ∈ st.2.2, ∀ nid ∈ p.2.neighbors.getD l' [], nid ∈ K) ∧
  (∀ p ∈ st.2.2, ∀ l' : ℕ, ∀ nid ∈ p.2.neighbors.getD l' [],
    nid ∈ K ∨ nid = id) ∧
  (∀ l' : ℕ, ∀ nid ∈ st.2.1.getD l' [], nid ∈ K)

/-- Concrete configuration exercising the neighbor-selection step:
`dimension 2, m = 2, m_max_0 = 2, ef_construction = 10`. -/
def exC1Config : HnswConfig :=
  { dimension := 2, m := 2, m_max_0 := 2, ef_construction := 10, ml := 1 }

/-- Three inserts at layer 0 with exact-norm vectors on the circle of
radius 5. -/
def exC1Ops : InsertOps := [(1, [5, 0], 0), (2, [4, 3], 0), (3, [3, 4], 0)]

/-- The state reached by `exC1Ops` (verified by evaluation in the theorems
below): a triangle at layer 0 with entry point 1. -/
def exC1S3 : HnswIndex :=
  { config := exC1Config
    nodes := [(1, { id := 1, vector := [5, 0], neighbors := [[2, 3]] }),
              (2, { id := 2, vector := [4, 3], neighbors := [[1, 3]] }),
              (3, { id := 3, vector := [3, 4], neighbors := [[1, 2]] })]
    entry_point := some 1
    max_layer := 0 }

/-- The candidate frontier produced by `search_layer` during the layered
insertion of vector `[0, 5]` at layer 0 of `exC1S3` (the entry point is 1 and
the zoom-in loop is empty at level 0). -/
def exC1Frontier : List Candidate := searchLayer exC1S3.nodes [0, 5] 1 10 0

/-- A dimension-1 configuration for the serialization witness. -/
def exC2Config : HnswConfig :=
  { dimension := 1, m := 2, m_max_0 := 2, ef_construction := 10, ml := 1 }

/-- The two-insert, dimension-1 index used as a degree-bound witness. -/
def exC6S : HnswIndex :=
  { config := exC2Config
    nodes := [(1, { id := 1, vector := [1], neighbors := [[2]] }),
              (2, { id := 2, vector := [1], neighbors := [[1]] })]
    entry_point := some 1
    max_layer := 0 }

/-- The one-node index built by inserting `(1, [1])` at level 0. -/
def exC2S : HnswIndex :=
  { config := exC2Config
    nodes := [(1, { id := 1, vector := [1], neighbors := [[]] })]
    entry_point := some 1
    max_layer := 0 }

/-! # Theorems -/

/-- C7: every `commit_version(info)` performs exactly two storage writes, in
order: first the manifest JSON to `_metadata/version_<info.version>.json`,
then the ASCII-decimal text of `info.version` to `_metadata/latest`; the
pointer write never precedes the manifest write. -/
theorem commit_version_write_order (st : Store) (info : VersionInfo) :
    (commit_version st info).2 =
      [⟨version_path info.version, versionInfoJson info⟩,
       ⟨latest_path, Nat.repr info.version⟩] ∧
    (commit_version st info).2.length = 2 ∧
    (commit_version st info).2.map WriteRec.path =
      [version_path info.version, latest_path] :=
  ⟨rfl, rfl, rfl⟩

/-- C8: `get_latest_version_num` returns 0 exactly when `_metadata/latest`
does not exist; otherwise it reads the body, trims whitespace and parses it
as base-10 `u64`, and a parse failure is an error, never a silent 0. -/
theorem get_latest_version_num_correct (st : Store) :
    get_latest_version_num st = get_latest_version_num_spec st := by
  unfold get_latest_version_num get_latest_version_num_spec storeExists storeRead
  cases h : List.lookup latest_path st <;> simp [h]

/-- The flattening loop reports the first wrong-length vector, else the
row-major concatenation. -/
theorem flattenVectors_eq (D : ℕ) (vs : List (List Q)) :
    flattenVectors D vs =
      match vs.find? (fun v => v.length ≠ D) with
      | some v => .error (.DimensionMismatch D v.length)
      | none => .ok vs.flatten := by
  induction vs with
  | nil => rfl
  | cons v vs ih =>
    by_cases h : v.length = D
    · rw [flattenVectors, if_neg (by simp [h]), ih,
        List.find?_cons_of_neg _ (by simp [h])]
      cases vs.find? (fun v => v.length ≠ D) <;> simp [Except.map]
    · rw [flattenVectors, if_pos h, List.find?_cons_of_pos _ (by simp [h])]

/-- Row-major flattening of `n` rows of width `D` has length `n·D`. -/
theorem flatten_length_of_dim (D : ℕ) (vs : List (List Q))
    (h : ∀ v ∈ vs, v.length = D) : vs.flatten.length = vs.length * D := by
  induction vs with
  | nil => simp
  | cons v vs ih =>
    simp only [List.flatten_cons, List.length_append, List.length_cons,
      h v (by simp), ih (fun w hw => h w (by simp [hw]))]
    ring

/-- C9: `create_batch` fails with `InvalidConfig` on unequal input lengths,
fails with `DimensionMismatch` when some vector's length differs from the
writer's dimension, and on success flattens the vectors row-major into one
contiguous buffer of length `N·D`. -/
theorem create_batch_correct (D : ℕ) (ids : List ℕ) (vectors : List (List Q))
    (metadata : List (Option String)) :
    create_batch D ids vectors metadata =
      create_batch_spec D ids vectors metadata ∧
    ∀ b, create_batch D ids vectors metadata = .ok b →
      b.vector_values.length = ids.length * D := by
  constructor
  · unfold create_batch create_batch_spec
    split
    · rfl
    · rw [flattenVectors_eq]
      cases vectors.find? (fun v => v.length ≠ D) <;> rfl
  · intro b hb
    unfold create_batch at hb
    split at hb
    · exact absurd hb (by simp)
    · rename_i hlen
      rw [flattenVectors_eq] at hb
      cases hfind : vectors.find? (fun v => v.length ≠ D) with
      | some v => rw [hfind] at hb; exact absurd hb (by simp)
      | none =>
        rw [hfind] at hb
        have hb' : b = ⟨ids, vectors.flatten, metadata⟩ := by
          cases hb; rfl
        have hdim : ∀ v ∈ vectors, v.length = D := by
          intro v hv
          have := List.find?_eq_none.mp hfind v hv
          simpa using this
        have hl : ids.length = vectors.length := by
          rcases not_or.mp hlen with ⟨h1, _⟩
          simpa using h1
        rw [hb']
        simpa [hl] using flatten_length_of_dim D vectors hdim

/-- Witness for C9 at two rows of dimension 2. -/
theorem create_batch_correct_witness :
    create_batch 2 [1, 2] [[1, 2], [3, 4]] [some "a", none] =
      create_batch_spec 2 [1, 2] [[1, 2], [3, 4]] [some "a", none] ∧
    create_batch 2 [1, 2] [[1, 2], [3, 4]] [some "a", none] =
      .ok ⟨[1, 2], [1, 2, 3, 4], [some "a", none]⟩ ∧
    (RecordBatch.mk [1, 2] [1, 2, 3, 4] [some "a", none]).vector_values.length =
      [1, 2].length * 2 :=
  ⟨(create_batch_correct 2 [1, 2] [[1, 2], [3, 4]] [some "a", none]).1,
   by decide,
   (create_batch_correct 2 [1, 2] [[1, 2], [3, 4]] [some "a", none]).2
     (RecordBatch.mk [1, 2] [1, 2, 3, 4] [some "a", none]) (by decide)⟩

/-- C5: a wrong-length vector makes both `insert` and `search` fail with
`DimensionMismatch(expected = D, actual = |v|)` before touching any state
(the model returns the error with no successor state, mirroring the early
returns at hnsw.rs:189-195 and 309-315). -/
theorem insert_search_dimension_mismatch (s : HnswIndex) (id : ℕ)
    (v : List Q) (level k ef : ℕ) (h : v.length ≠ s.config.dimension) :
    s.insert id v level =
      .err (.DimensionMismatch s.config.dimension v.length) ∧
    s.search v k ef =
      .error (.DimensionMismatch s.config.dimension v.length) := by
  unfold HnswIndex.insert HnswIndex.search
  rw [if_pos h, if_pos h]
  exact ⟨rfl, rfl⟩

/-- Witness for C5 at a dimension-2 index and the vector `[1]`. -/
theorem insert_search_dimension_mismatch_witness :
    ([(1 : Q)].length ≠ (HnswIndex.new exC1Config).config.dimension) ∧
    (HnswIndex.new exC1Config).insert 7 [1] 0 =
      .err (.DimensionMismatch 2 1) ∧
    (HnswIndex.new exC1Config).search [1] 5 10 =
      .error (.DimensionMismatch 2 1) :=
  ⟨by decide,
    (insert_search_dimension_mismatch (HnswIndex.new exC1Config) 7 [1] 0 5 10
      (by decide)).1,
    (insert_search_dimension_mismatch (HnswIndex.new exC1Config) 7 [1] 0 5 10
      (by decide)).2⟩

/-- C3 (the claim is the spec's requirement; the code violates it):
`brute_force_topk` panics on the two-row dataset whose first vector contains
a NaN — the sort comparator is `partial_cmp(..).unwrap()` (vector.rs:134),
which unwraps `None` for the NaN score. -/
theorem brute_force_topk_panics_on_nan :
    brute_force_topk [F32.fin 1, F32.fin 0]
      [(1, [F32.nan, F32.fin 0]), (2, [F32.fin 1, F32.fin 0])] 1 =
      .panicked := by decide

/-- C4 counterexample: at `ml = 1` and `r = e^(−1/2) ∈ (0, 1]` the code's
layer (`-⌊ln r · ml⌋`, hnsw.rs:357) is `1`, while the claimed
`⌊−ln r · ml⌋` is `0`. -/
theorem generate_random_layer_not_floor :
    0 < Real.exp (-(1 / 2 : ℝ)) ∧ Real.exp (-(1 / 2 : ℝ)) ≤ 1 ∧
    generate_random_layer 1 (Real.exp (-(1 / 2 : ℝ))) = 1 ∧
    ⌊-(Real.log (Real.exp (-(1 / 2 : ℝ))) * 1)⌋ = 0 := by
  have hlog : Real.log (Real.exp (-(1 / 2 : ℝ))) = -(1 / 2 : ℝ) :=
    Real.log_exp _
  refine ⟨Real.exp_pos _, ?_, ?_, ?_⟩
  · calc Real.exp (-(1 / 2 : ℝ)) ≤ Real.exp 0 :=
        Real.exp_le_exp.mpr (by norm_num)
      _ = 1 := Real.exp_zero
  · unfold generate_random_layer
    rw [hlog]
    norm_num
  · rw [hlog]
    norm_num

/-- C4 amended: for every draw `r ∈ (0, 1]` the assigned layer is
`⌈−ln(r) · ml⌉` — the ceiling, not the floor, because the code floors before
negating. -/
theorem generate_random_layer_eq_ceil (ml r : ℝ) (_h0 : 0 < r) (_h1 : r ≤ 1) :
    generate_random_layer ml r = ⌈-(Real.log r * ml)⌉ := by
  unfold generate_random_layer
  exact (Int.ceil_neg).symm

/-- Witness for the amended C4 at `ml = 1`, `r = 1`. -/
theorem generate_random_layer_eq_ceil_witness :
    (0 : ℝ) < 1 ∧ (1 : ℝ) ≤ 1 ∧
    generate_random_layer 1 1 = ⌈-(Real.log 1 * 1)⌉ :=
  ⟨by norm_num, le_refl 1,
    generate_random_layer_eq_ceil 1 1 (by norm_num) (le_refl 1)⟩

/-- C1 (the claim matches the code's evident intent — hnsw.rs:293 even names
the head of the selection `closest` — but the code violates it):
`insert` selects `candidates.into_iter().take(m)` from the result heap of
`search_layer`, which yields the *backing-array order* of the max-heap — the
furthest candidate first — not the `m` closest.  Concretely: inserting
`[0, 5]` into `exC1S3` sees the frontier `[1@1, 2@2/5, 3@1/5]` and selects
`[1, 2]`, although 3 is strictly closer than the selected 1.  A fresh insert
then panics inside the over-degree prune (hnsw.rs:277 looks the
not-yet-inserted id up with `unwrap`), while the same insertion under an
existing id (a re-insert) completes and stores the non-closest selection
`[1, 2]` as node 3's layer-0 neighbor list. -/
theorem hnsw_insert_takes_heap_order_not_closest :
    insertAll (HnswIndex.new exC1Config) exC1Ops = .ok exC1S3 ∧
    exC1Frontier = [⟨1, 1⟩, ⟨2, 2 / 5⟩, ⟨3, 1 / 5⟩] ∧
    (exC1Frontier.take 2).map Candidate.id = [1, 2] ∧
    (3 ∈ exC1Frontier.map Candidate.id ∧ 3 ∉ [1, 2] ∧
      get_distance exC1S3.nodes [0, 5] 3 <
        get_distance exC1S3.nodes [0, 5] 1) ∧
    exC1S3.insert 4 [0, 5] 0 = .panicked ∧
    insertAll (HnswIndex.new exC1Config) (exC1Ops ++ [(3, [0, 5], 0)]) =
      .ok { config := exC1Config
            nodes := [(1, { id := 1, vector := [5, 0], neighbors := [[2, 3]] }),
                      (2, { id := 2, vector := [4, 3], neighbors := [[3, 3]] }),
                      (3, { id := 3, vector := [0, 5], neighbors := [[1, 2]] })]
            entry_point := some 1
            max_layer := 0 } := by
  refine ⟨by decide, by decide, by decide, ⟨by decide, by decide, by decide⟩,
    by decide, by decide⟩

/-! ### Serialization round-trip (C2) -/

/-- Decoding inverts encoding for naturals. -/
theorem decNat_encNat (n : ℕ) (r : List ℤ) :
    decNat (encNat n ++ r) = some (n, r) := by
  simp [encNat, decNat, Int.toNat_natCast]

/-- Decoding inverts encoding for integers. -/
theorem decInt_encInt (i : ℤ) (r : List ℤ) :
    decInt (encInt i ++ r) = some (i, r) := rfl

/-- Decoding inverts encoding for fractions. -/
theorem decQ_encQ (q : Q) (r : List ℤ) :
    decQ (encQ q ++ r) = some (q, r) := by
  simp [encQ, decQ, Int.toNat_natCast]

/-- Decoding inverts encoding for a counted run of elements. -/
theorem decListAux_enc {α : Type} (dec : List ℤ → Option (α × List ℤ))
    (enc : α → List ℤ)
    (H : ∀ (x : α) (r : List ℤ), dec (enc x ++ r) = some (x, r)) :
    ∀ (l : List α) (r : List ℤ),
      decListAux dec l.length (l.flatMap enc ++ r) = some (l, r) := by
  intro l
  induction l with
  | nil => intro r; simp [decListAux]
  | cons x xs ih =>
    intro r
    simp [decListAux, List.flatMap_cons, List.append_assoc, H, ih]

/-- Decoding inverts encoding for length-prefixed lists. -/
theorem decList_encList {α : Type} (dec : List ℤ → Option (α × List ℤ))
    (enc : α → List ℤ)
    (H : ∀ (x : α) (r : List ℤ), dec (enc x ++ r) = some (x, r))
    (l : List α) (r : List ℤ) :
    decList dec (encList enc l ++ r) = some (l, r) := by
  simp [encList, decList, List.append_assoc, decNat_encNat,
    decListAux_enc dec enc H]

/-- Decoding inverts encoding for optional values. -/
theorem decOpt_encOpt {α : Type} (dec : List ℤ → Option (α × List ℤ))
    (enc : α → List ℤ)
    (H : ∀ (x : α) (r : List ℤ), dec (enc x ++ r) = some (x, r))
    (o : Option α) (r : List ℤ) :
    decOpt dec (encOpt enc o ++ r) = some (o, r) := by
  cases o with
  | none => rfl
  | some x => simp [encOpt, decOpt, H]

/-- Decoding inverts encoding for nodes. -/
theorem decNode_encNode (n : HnswNode) (r : List ℤ) :
    decNode (encNode n ++ r) = some (n, r) := by
  have h1 := decList_encList decQ encQ decQ_encQ
  have h2 := decList_encList (decList decNat) (encList encNat)
    (decList_encList decNat encNat decNat_encNat)
  simp [encNode, decNode, List.append_assoc, decNat_encNat, h1, h2]

/-- Decoding inverts encoding for node-table entries. -/
theorem decEntry_encEntry (e : ℕ × HnswNode) (r : List ℤ) :
    decEntry (encEntry e ++ r) = some (e, r) := by
  simp [encEntry, decEntry, List.append_assoc, decNat_encNat, decNode_encNode]

/-- Decoding inverts encoding for configurations. -/
theorem decConfig_encConfig (c : HnswConfig) (r : List ℤ) :
    decConfig (encConfig c ++ r) = some (c, r) := by
  simp [encConfig, decConfig, List.append_assoc, decNat_encNat, decQ_encQ]

/-- Decoding inverts encoding for whole index states. -/
theorem decIndex_encIndex (s : HnswIndex) (r : List ℤ) :
    decIndex (encIndex s ++ r) = some (s, r) := by
  have h1 := decList_encList decEntry encEntry decEntry_encEntry
  have h2 := decOpt_encOpt decNat encNat decNat_encNat
  simp [encIndex, decIndex, List.append_assoc, decConfig_encConfig, h1, h2,
    decInt_encInt]

/-- C2: for every index built by a sequence of successful inserts,
deserializing its serialization succeeds and yields an index whose search
results equal the original's for every query, `k` and `ef` (searches are
pure functions of the state, and the state round-trips exactly). -/
theorem hnsw_serialize_roundtrip_preserves_search
    (cfg : HnswConfig) (ops : InsertOps) (s : HnswIndex)
    (_h : insertAll (HnswIndex.new cfg) ops = .ok s) :
    HnswIndex.deserializeBytes s.serializeBytes = .ok s ∧
    ∀ (s' : HnswIndex), HnswIndex.deserializeBytes s.serializeBytes = .ok s' →
      ∀ (query : List Q) (k ef : ℕ),
        s'.search query k ef = s.search query k ef := by
  have hrt : decIndex (encIndex s) = some (s, []) := by
    have := decIndex_encIndex s []
    simpa using this
  constructor
  · simp [HnswIndex.deserializeBytes, HnswIndex.serializeBytes, hrt]
  · intro s' h' query k ef
    simp [HnswIndex.deserializeBytes, HnswIndex.serializeBytes, hrt] at h'
    rw [h']

/-- Witness for C2: a one-insert index round-trips exactly. -/
theorem hnsw_serialize_roundtrip_witness :
    insertAll (HnswIndex.new exC2Config) [(1, [1], 0)] = .ok exC2S ∧
    HnswIndex.deserializeBytes exC2S.serializeBytes = .ok exC2S :=
  ⟨by decide,
    (hnsw_serialize_roundtrip_preserves_search exC2Config [(1, [1], 0)] exC2S
      (by decide)).1⟩

/-! ### List, table and heap toolkit for the insertion invariants -/

/-- `getD` after `set`. -/
theorem getD_set {α : Type} (a : List α) (i j : ℕ) (x d : α) :
    (a.set i x).getD j d = if i = j ∧ i < a.length then x else a.getD j d := by
  induction a generalizing i j with
  | nil => simp [List.getD]
  | cons y ys ih =>
    cases i with
    | zero => cases j <;> simp [List.getD]
    | succ i =>
      cases j with
      | zero => simp [List.getD]
      | succ j =>
        simp only [List.set_cons_succ, List.getD_cons_succ, ih,
          List.length_cons]
        have heq : (i + 1 = j + 1 ∧ i + 1 < ys.length + 1) ↔
            (i = j ∧ i < ys.length) := by omega
        simp only [heq]


/-- Setting a slot to its own contents is the identity. -/
theorem set_getD_self {α : Type} (a : List α) (i : ℕ) (d : α)
    (h : i < a.length) : a.set i (a.getD i d) = a := by
  induction a generalizing i with
  | nil => simp at h
  | cons y ys ih =>
    cases i with
    | zero => simp [List.getD]
    | succ i =>
      simp only [List.getD_cons_succ, List.set_cons_succ, List.cons.injEq,
        true_and]
      exact ih i (by simpa using h)

/-- `getD` at the last position is `getLast`. -/
theorem getD_last {α : Type} (a : List α) (d : α) (h : a ≠ []) :
    a.getD (a.length - 1) d = a.getLast h := by
  induction a with
  | nil => exact absurd rfl h
  | cons y ys ih =>
    cases ys with
    | nil => simp [List.getD, List.getLast]
    | cons z zs =>
      simp only [List.length_cons, Nat.add_sub_cancel]
      rw [List.getLast_cons (by simp), ← ih (by simp)]
      simp [List.getD]

/-- A successful lookup is a member of the association list. -/
theorem lookup_mem {t : NodeTable} {k : ℕ} {v : HnswNode}
    (h : List.lookup k t = some v) : (k, v) ∈ t := by
  induction t with
  | nil => simp [List.lookup] at h
  | cons p ps ih =>
    cases p with
    | mk a b =>
      simp only [List.lookup] at h
      by_cases hk : k = a
      · subst hk
        simp only [beq_self_eq_true, Option.some.injEq] at h
        subst h
        exact List.mem_cons_self _ _
      · simp only [show (k == a) = false from by simpa using hk] at h
        exact List.mem_cons_of_mem _ (ih h)

/-- A successful lookup's key is in the key list. -/
theorem mem_keys_of_lookup {t : NodeTable} {k : ℕ} {v : HnswNode}
    (h : List.lookup k t = some v) : k ∈ tableKeys t := by
  have := lookup_mem h
  exact List.mem_map_of_mem Prod.fst this

/-- Members of `tableInsert` are the new binding or old members. -/
theorem mem_tableInsert {t : NodeTable} {k : ℕ} {v : HnswNode} {p : ℕ × HnswNode}
    (h : p ∈ tableInsert t k v) : p = (k, v) ∨ p ∈ t := by
  unfold tableInsert at h
  split at h
  · obtain ⟨q, hq, hfq⟩ := List.mem_map.mp h
    by_cases hqk : q.1 = k
    · left; rw [← hfq]; simp [hqk]
    · right; rw [← hfq]; simpa [hqk] using hq
  · rcases List.mem_append.mp h with h' | h'
    · right; exact h'
    · left; simpa using h'

/-- Inserting never removes keys. -/
theorem tableKeys_subset_tableInsert (t : NodeTable) (k : ℕ) (v : HnswNode) :
    ∀ k' ∈ tableKeys t, k' ∈ tableKeys (tableInsert t k v) := by
  intro k' hk'
  obtain ⟨p, hp, hfp⟩ := List.mem_map.mp hk'
  unfold tableInsert tableKeys
  split
  · refine List.mem_map.mpr
      ⟨if p.1 = k then (k, v) else p, List.mem_map.mpr ⟨p, hp, rfl⟩, ?_⟩
    by_cases hpk : p.1 = k
    · rw [if_pos hpk, ← hfp, hpk]
    · rw [if_neg hpk]; exact hfp
  · exact List.mem_map.mpr ⟨p, List.mem_append_left _ hp, hfp⟩

/-- The inserted key is a key afterwards. -/
theorem mem_tableKeys_tableInsert (t : NodeTable) (k : ℕ) (v : HnswNode) :
    k ∈ tableKeys (tableInsert t k v) := by
  unfold tableInsert tableKeys
  split
  · rename_i hany
    obtain ⟨p, hp, hpk⟩ := List.any_eq_true.mp hany
    refine List.mem_map.mpr ⟨(k, v), List.mem_map.mpr ⟨p, hp, ?_⟩, rfl⟩
    simp [show p.1 = k from by simpa using hpk]
  · exact List.mem_map.mpr ⟨(k, v), List.mem_append_right _ (by simp), rfl⟩

/-- Inserting at an existing key keeps the key list unchanged. -/
theorem tableKeys_tableInsert_of_mem (t : NodeTable) (k : ℕ) (v : HnswNode)
    (h : k ∈ tableKeys t) : tableKeys (tableInsert t k v) = tableKeys t := by
  unfold tableInsert
  have hany : t.any (fun p => decide (p.1 = k)) = true := by
    obtain ⟨p, hp, hfp⟩ := List.mem_map.mp h
    exact List.any_eq_true.mpr ⟨p, hp, by simp [hfp]⟩
  rw [if_pos hany]
  unfold tableKeys
  rw [List.map_map]
  refine List.map_congr_left ?_
  intro p _
  by_cases hpk : p.1 = k <;> simp [hpk]

/-- Pulling the `j`-th element to the front of a `set` is a permutation. -/
theorem getD_cons_set_perm {α : Type} :
    ∀ (xs : List α) (j : ℕ) (x d : α), j < xs.length →
      (xs.getD j d :: xs.set j x).Perm (x :: xs)
  | [], j, x, d, h => by simp at h
  | y :: ys, 0, x, d, _ => by
    simpa [List.getD] using List.Perm.swap x y ys
  | y :: ys, j + 1, x, d, h => by
    have ih := getD_cons_set_perm ys j x d (by simpa using h)
    have s1 : (ys.getD j d :: y :: ys.set j x).Perm
        (y :: ys.getD j d :: ys.set j x) := List.Perm.swap y (ys.getD j d) _
    have s2 : (y :: ys.getD j d :: ys.set j x).Perm (y :: x :: ys) :=
      ih.cons y
    have s3 : (y :: x :: ys).Perm (x :: y :: ys) := List.Perm.swap x y ys
    exact (s1.trans s2).trans s3

/-- Swapping two slots is a permutation. -/
theorem set_set_perm {α : Type} (d : α) :
    ∀ (a : List α) (i j : ℕ), i ≠ j → i < a.length → j < a.length →
      ((a.set i (a.getD j d)).set j (a.getD i d)).Perm a
  | [], _, _, _, hi, _ => by simp at hi
  | y :: ys, 0, 0, hij, _, _ => absurd rfl hij
  | y :: ys, 0, j + 1, _, _, hj => by
    simpa [List.getD] using getD_cons_set_perm ys j y d (by simpa using hj)
  | y :: ys, i + 1, 0, _, hi, _ => by
    simpa [List.getD] using getD_cons_set_perm ys i y d (by simpa using hi)
  | y :: ys, i + 1, j + 1, hij, hi, hj => by
    have ih := set_set_perm d ys i j (by omega) (by simpa using hi)
      (by simpa using hj)
    simpa [List.getD] using ih.cons y

/-- `sift_up` permutes the array (it is a chain of swaps). -/
theorem siftUpAux_perm (le : Candidate → Candidate → Bool) :
    ∀ (fuel : ℕ) (a : List Candidate) (pos : ℕ), pos < a.length →
      (siftUpAux le fuel a pos).Perm a
  | 0, a, pos, _ => List.Perm.refl a
  | fuel + 1, a, pos, hp => by
    have hpar : (pos - 1) / 2 < pos ∨ pos = 0 := by
      have := Nat.div_le_self (pos - 1) 2
      omega
    unfold siftUpAux
    split
    · exact List.Perm.refl a
    · rename_i h0
      split
      · exact List.Perm.refl a
      · have hpar' : (pos - 1) / 2 < pos := by
          rcases hpar with h | h
          · exact h
          · exact absurd h h0
        have hswap : (((a.set pos (a.getD ((pos - 1) / 2) default)).set
            ((pos - 1) / 2) (a.getD pos default))).Perm a :=
          set_set_perm default a pos ((pos - 1) / 2) (by omega) hp
            (by omega)
        have hrec := siftUpAux_perm le fuel
          ((a.set pos (a.getD ((pos - 1) / 2) default)).set
            ((pos - 1) / 2) (a.getD pos default)) ((pos - 1) / 2)
          (by simpa using Nat.lt_trans hpar' hp)
        exact hrec.trans hswap

/-- `sift_up` permutes the array. -/
theorem siftUp_perm (le : Candidate → Candidate → Bool) (a : List Candidate)
    (pos : ℕ) (hp : pos < a.length) : (siftUp le a pos).Perm a :=
  siftUpAux_perm le pos a pos hp

/-- `push` permutes appending. -/
theorem heapPush_perm (le : Candidate → Candidate → Bool)
    (a : List Candidate) (x : Candidate) :
    (heapPush le a x).Perm (a ++ [x]) :=
  siftUp_perm le (a ++ [x]) a.length (by simp)

/-- The hole-descent loop: writing `x` into the final hole is a permutation
of writing `x` into the starting hole; the final hole is in range and the
length is preserved. -/
theorem siftDownLoopAux_spec (le : Candidate → Candidate → Bool) :
    ∀ (fuel : ℕ) (a : List Candidate) (pos : ℕ) (x : Candidate),
      pos < a.length →
      ((siftDownLoopAux le fuel a pos).1.set
          (siftDownLoopAux le fuel a pos).2 x).Perm (a.set pos x) ∧
        (siftDownLoopAux le fuel a pos).2 < a.length ∧
        (siftDownLoopAux le fuel a pos).1.length = a.length
  | 0, a, pos, x, hp => ⟨List.Perm.refl _, hp, rfl⟩
  | fuel + 1, a, pos, x, hp => by
    have swaplem : ∀ ch : ℕ, pos < ch → ch < a.length →
        ((a.set pos (a.getD ch default)).set ch x).Perm (a.set pos x) := by
      intro ch hch1 hch2
      have e1 : (a.set pos x).getD ch default = a.getD ch default := by
        rw [getD_set, if_neg]
        rintro ⟨h, -⟩
        omega
      have e2 : (a.set pos x).getD pos default = x := by
        rw [getD_set, if_pos ⟨rfl, hp⟩]
      have hb : (a.set pos (a.getD ch default)).set ch x =
          ((a.set pos x).set pos ((a.set pos x).getD ch default)).set ch
            ((a.set pos x).getD pos default) := by
        rw [e1, e2, List.set_set]
      rw [hb]
      exact set_set_perm default (a.set pos x) pos ch (by omega)
        (by simpa using hp) (by simpa using hch2)
    have key : ∀ ch : ℕ, pos < ch → ch < a.length →
        ((siftDownLoopAux le fuel (a.set pos (a.getD ch default)) ch).1.set
            (siftDownLoopAux le fuel (a.set pos (a.getD ch default)) ch).2
            x).Perm (a.set pos x) ∧
          (siftDownLoopAux le fuel (a.set pos (a.getD ch default)) ch).2 <
            a.length ∧
          (siftDownLoopAux le fuel
              (a.set pos (a.getD ch default)) ch).1.length = a.length := by
      intro ch hch1 hch2
      have ih := siftDownLoopAux_spec le fuel
        (a.set pos (a.getD ch default)) ch x (by simpa using hch2)
      exact ⟨ih.1.trans (swaplem ch hch1 hch2),
        by simpa using ih.2.1, by simpa using ih.2.2⟩
    unfold siftDownLoopAux
    split_ifs with h1 hc h2
    · exact key (2 * pos + 2) (by omega) (by omega)
    · exact key (2 * pos + 1) (by omega) (by omega)
    · refine ⟨swaplem (2 * pos + 1) (by omega) (by omega), by omega, by simp⟩
    · exact ⟨List.Perm.refl _, hp, rfl⟩

/-- `sift_down_to_bottom` permutes the array. -/
theorem siftDown_perm (le : Candidate → Candidate → Bool)
    (a : List Candidate) (pos : ℕ) (hp : pos < a.length) :
    (siftDown le a pos).Perm a := by
  unfold siftDown siftDownLoop
  have hs := siftDownLoopAux_spec le a.length a pos (a.getD pos default) hp
  have hperm := hs.1
  rw [set_getD_self a pos default hp] at hperm
  have hup := siftUp_perm le
    ((siftDownLoopAux le a.length a pos).1.set
      (siftDownLoopAux le a.length a pos).2 (a.getD pos default))
    (siftDownLoopAux le a.length a pos).2
    (by simpa [hs.2.2] using hs.2.1)
  exact hup.trans hperm

/-- A `pop` on a nonempty heap returns the root, and the remaining heap is a
permutation of the original tail. -/
theorem heapPop_some_perm (le : Candidate → Candidate → Bool)
    (p : Candidate) (ps : List Candidate) (c : Candidate)
    (a' : List Candidate) (h : heapPop le (p :: ps) = some (c, a')) :
    c = p ∧ a'.Perm ps := by
  cases ps with
  | nil =>
    unfold heapPop at h
    simp only [List.dropLast_single, List.isEmpty_nil, if_true,
      List.length_cons, List.length_nil, List.getD_cons_zero,
      Option.some.injEq, Prod.mk.injEq] at h
    obtain ⟨rfl, rfl⟩ := h
    exact ⟨rfl, List.Perm.refl _⟩
  | cons q qs =>
    have hps : (q :: qs) ≠ [] := by simp
    have hrest : (p :: q :: qs).dropLast = p :: (q :: qs).dropLast := by
      simp [List.dropLast]
    unfold heapPop at h
    rw [hrest] at h
    simp only [List.isEmpty_cons, if_false, Bool.false_eq_true] at h
    have hitem : (p :: q :: qs).getD ((p :: q :: qs).length - 1) default =
        (q :: qs).getLast hps := by
      rw [getD_last (p :: q :: qs) default (by simp)]
      exact List.getLast_cons hps
    rw [hitem] at h
    have hset : (p :: (q :: qs).dropLast).set 0 ((q :: qs).getLast hps) =
        (q :: qs).getLast hps :: (q :: qs).dropLast := rfl
    rw [hset] at h
    have hgd : (p :: (q :: qs).dropLast).getD 0 default = p := rfl
    rw [hgd] at h
    simp only [Option.some.injEq, Prod.mk.injEq] at h
    obtain ⟨rfl, rfl⟩ := h
    refine ⟨rfl, ?_⟩
    have h1 : (siftDown le ((q :: qs).getLast hps :: (q :: qs).dropLast)
        0).Perm ((q :: qs).getLast hps :: (q :: qs).dropLast) :=
      siftDown_perm le _ 0 (by simp)
    have h2 : ((q :: qs).getLast hps :: (q :: qs).dropLast).Perm (q :: qs) := by
      have hap := List.perm_append_singleton ((q :: qs).getLast hps)
        ((q :: qs).dropLast)
      rw [List.dropLast_append_getLast hps] at hap
      exact hap.symm
    exact h1.trans h2

/-- Every element of a successful `mapM` comes from some input element. -/
theorem mapM_option_mem {α β : Type} {f : α → Option β} :
    ∀ {l : List α} {l' : List β}, l.mapM f = some l' →
      ∀ b ∈ l', ∃ a ∈ l, f a = some b := by
  intro l
  induction l with
  | nil =>
    intro l' h b hb
    simp only [List.mapM_nil, pure, Option.some.injEq] at h
    subst h
    simp at hb
  | cons x xs ih =>
    intro l' h b hb
    rw [List.mapM_cons] at h
    cases hfx : f x with
    | none => rw [hfx] at h; simp [Option.bind] at h
    | some y =>
      rw [hfx] at h
      cases hrest : xs.mapM f with
      | none => rw [hrest] at h; simp [Option.bind, Seq.seq] at h
      | some ys =>
        rw [hrest] at h
        have : l' = y :: ys := by
          simpa [Option.bind, Seq.seq, pure] using h.symm
        subst this
        rcases List.mem_cons.mp hb with hb | hb
        · exact ⟨x, by simp, by rw [hfx, hb]⟩
        · obtain ⟨a, ha, hfa⟩ := ih hrest b hb
          exact ⟨a, by simp [ha], hfa⟩

/-- An invariant indexed by the remaining work list is carried through a
successful `foldlM` over `Option`. -/
theorem foldlM_option_inv {σ : Type} (f : σ → ℕ → Option σ)
    (P : List ℕ → σ → Prop)
    (hstep : ∀ l ls st st', f st l = some st' → P (l :: ls) st → P ls st') :
    ∀ (ls : List ℕ) (st st' : σ), List.foldlM f st ls = some st' →
      P ls st → P [] st' := by
  intro ls
  induction ls with
  | nil =>
    intro st st' h hP
    simp only [List.foldlM_nil, pure, Option.some.injEq] at h
    subst h
    exact hP
  | cons l ls ih =>
    intro st st' h hP
    rw [List.foldlM_cons] at h
    cases hf : f st l with
    | none => rw [hf] at h; simp [Option.bind] at h
    | some st₁ =>
      rw [hf] at h
      simp only [Option.bind_eq_bind, Option.some_bind] at h
      exact ih st₁ st' h (hstep l ls st st₁ hf hP)

/-- Stable insertion preserves the multiset of `(id, distance)` pairs. -/
theorem insertByKey_perm (x : ℕ × Q) :
    ∀ (l : List (ℕ × Q)), (insertByKey x l).Perm (x :: l)
  | [] => List.Perm.refl _
  | y :: ys => by
    unfold insertByKey
    split
    · have ih := insertByKey_perm x ys
      exact (ih.cons y).trans (List.Perm.swap x y ys)
    · exact List.Perm.refl _

/-- The prune's sort is a permutation. -/
theorem sortByKey_perm (l : List (ℕ × Q)) : (sortByKey l).Perm l := by
  unfold sortByKey
  induction l with
  | nil => exact List.Perm.refl _
  | cons x xs ih =>
    simp only [List.foldr_cons]
    exact (insertByKey_perm x _).trans (ih.cons x)

/-- Stable insertion by score preserves the multiset of results. -/
theorem insertByScore_perm (x : SearchResult) :
    ∀ (l : List SearchResult), (insertByScore x l).Perm (x :: l)
  | [] => List.Perm.refl _
  | y :: ys => by
    unfold insertByScore
    split
    · have ih := insertByScore_perm x ys
      exact (ih.cons y).trans (List.Perm.swap x y ys)
    · exact List.Perm.refl _

/-- The search-result sort is a permutation. -/
theorem sortByScoreDesc_perm (l : List SearchResult) :
    (sortByScoreDesc l).Perm l := by
  unfold sortByScoreDesc
  induction l with
  | nil => exact List.Perm.refl _
  | cons x xs ih =>
    simp only [List.foldr_cons]
    exact (insertByScore_perm x _).trans (ih.cons x)

/-! ### Degree bounds (C6) -/

/-- The prune returns at most `m` ids, all taken from the incoming list. -/
theorem shrinkConnections_spec {t : NodeTable} {nvec : List Q}
    {conns : List ℕ} {m : ℕ} {nbs : List ℕ}
    (h : shrinkConnections t nvec conns m = some nbs) :
    nbs.length ≤ m ∧ ∀ x ∈ nbs, x ∈ conns := by
  unfold shrinkConnections at h
  cases hm : conns.mapM (fun cid =>
      (List.lookup cid t).map fun node =>
        (cid, 1 - cosine_similarity nvec node.vector)) with
  | none => rw [hm] at h; exact absurd h (by simp)
  | some cs =>
    rw [hm] at h
    have h' : (((sortByKey cs).take m).map (·.1)) = nbs := by simpa using h
    subst h'
    constructor
    · calc (((sortByKey cs).take m).map (·.1)).length
          = ((sortByKey cs).take m).length := List.length_map _ _
        _ ≤ m := List.length_take_le _ _
    · intro x hx
      obtain ⟨pair, hpair, hfst⟩ := List.mem_map.mp hx
      have hpair' : pair ∈ sortByKey cs := List.mem_of_mem_take hpair
      have hpair'' : pair ∈ cs := (sortByKey_perm cs).mem_iff.mp hpair'
      obtain ⟨cid, hcid, hf⟩ := mapM_option_mem hm pair hpair''
      cases hl : List.lookup cid t with
      | none => rw [hl] at hf; exact absurd hf (by simp)
      | some node =>
        rw [hl] at hf
        have hf' : (cid, 1 - cosine_similarity nvec node.vector) = pair := by
          simpa using hf
        have hp1 : pair.1 = cid := by rw [← hf']
        rw [← hfst, hp1]
        exact hcid

/-- A computed neighbor update is bounded by `m` and draws only from the
neighbor's previous layer-`l` list and the freshly inserted id. -/
theorem updateNeighbor_spec {t : NodeTable} {id m l nid : ℕ}
    {u : Option (List ℕ)} (h : updateNeighbor t id m l nid = some u) :
    ∀ nbs, u = some nbs →
      nbs.length ≤ m ∧
      ∀ x ∈ nbs,
        (∃ node, List.lookup nid t = some node ∧
          x ∈ node.neighbors.getD l []) ∨ x = id := by
  intro nbs hnbs
  subst hnbs
  unfold updateNeighbor at h
  cases hl : List.lookup nid t with
  | none => rw [hl] at h; exact absurd h (by simp)
  | some node =>
    rw [hl] at h
    simp only at h
    by_cases hlen : l < node.neighbors.length
    · rw [if_pos hlen] at h
      by_cases hover : m < (node.neighbors.getD l [] ++ [id]).length
      · rw [if_pos hover] at h
        cases hs : shrinkConnections t node.vector
            (node.neighbors.getD l [] ++ [id]) m with
        | none => rw [hs] at h; exact absurd h (by simp)
        | some nbs' =>
          rw [hs] at h
          have hb := shrinkConnections_spec hs
          have heq : nbs' = nbs := by simpa using h
          subst heq
          refine ⟨hb.1, ?_⟩
          intro x hx
          rcases List.mem_append.mp (hb.2 x hx) with hx' | hx'
          · exact Or.inl ⟨node, rfl, hx'⟩
          · exact Or.inr (by simpa using hx')
      · rw [if_neg hover] at h
        have heq : node.neighbors.getD l [] ++ [id] = nbs := by simpa using h
        subst heq
        refine ⟨by omega, ?_⟩
        intro x hx
        rcases List.mem_append.mp hx with hx' | hx'
        · exact Or.inl ⟨node, rfl, hx'⟩
        · exact Or.inr (by simpa using hx')
    · rw [if_neg hlen] at h
      exact absurd h (by simp)

/-- Applying a batch of per-neighbor updates whose payloads are bounded at
layer `l` preserves the degree bounds of the table. -/
theorem applyUpdates_bounds (cfg : HnswConfig) (l : ℕ) :
    ∀ (us : List (ℕ × Option (List ℕ))) (t : NodeTable),
      (∀ p ∈ t, ∀ l' : ℕ,
        (p.2.neighbors.getD l' []).length ≤ layerBound cfg l') →
      (∀ u ∈ us, ∀ nbs, u.2 = some nbs → nbs.length ≤ layerBound cfg l) →
      ∀ p ∈ us.foldl
          (fun t u =>
            match u.2 with
            | none => t
            | some nbs =>
              match List.lookup u.1 t with
              | none => t
              | some node =>
                tableInsert t u.1
                  { node with neighbors := node.neighbors.set l nbs }) t,
        ∀ l' : ℕ, (p.2.neighbors.getD l' []).length ≤ layerBound cfg l' := by
  intro us
  induction us with
  | nil => intro t ht _ p hp; exact ht p hp
  | cons u us ih =>
    intro t ht hus
    rw [List.foldl_cons]
    refine ih _ ?_ (fun u' hu' => hus u' (by simp [hu']))
    cases hu2 : u.2 with
    | none => simpa [hu2] using ht
    | some nbs =>
      cases hl : List.lookup u.1 t with
      | none => simpa [hu2, hl] using ht
      | some node =>
        simp only [hu2, hl]
        intro p hp l'
        rcases mem_tableInsert hp with hnew | hold
        · subst hnew
          simp only
          rw [getD_set]
          split
          · rename_i hcond
            rw [← hcond.1]
            exact hus u (by simp) nbs hu2
          · exact ht (u.1, node) (lookup_mem hl) l'
        · exact ht p hold l'

/-- `getD` on a replicate of empty lists is empty. -/
theorem replicate_getD (n l' : ℕ) :
    (List.replicate n ([] : List ℕ)).getD l' [] = [] := by
  induction n generalizing l' with
  | zero => simp [List.getD]
  | succ n ih =>
    cases l' with
    | zero => simp [List.replicate, List.getD]
    | succ l' => simpa [List.replicate, List.getD] using ih l'

/-- One layer of layered insertion preserves the degree bounds of the table
and of the new node's list under construction. -/
theorem insertLayerStep_bounds {cfg : HnswConfig} {id : ℕ} {vector : List Q}
    {st st' : ℕ × List (List ℕ) × NodeTable} {l : ℕ}
    (h : insertLayerStep cfg id vector st l = some st')
    (ht : ∀ p ∈ st.2.2, ∀ l' : ℕ,
      (p.2.neighbors.getD l' []).length ≤ layerBound cfg l')
    (hn : ∀ l' : ℕ, (st.2.1.getD l' []).length ≤ layerBound cfg l') :
    (∀ p ∈ st'.2.2, ∀ l' : ℕ,
      (p.2.neighbors.getD l' []).length ≤ layerBound cfg l') ∧
    (∀ l' : ℕ, (st'.2.1.getD l' []).length ≤ layerBound cfg l') := by
  simp only [insertLayerStep] at h
  rw [Option.map_eq_some'] at h
  obtain ⟨us, hus, hst'⟩ := h
  subst hst'
  constructor
  · refine applyUpdates_bounds cfg l us st.2.2 ht ?_
    intro u hu nbs hnbs
    obtain ⟨nid, _hnid, hf⟩ := mapM_option_mem hus u hu
    cases hup : updateNeighbor st.2.2 id
        (if l = 0 then cfg.m_max_0 else cfg.m) l nid with
    | none => rw [hup] at hf; exact absurd hf (by simp)
    | some u2 =>
      rw [hup] at hf
      have huq : (nid, u2) = u := by simpa using hf
      subst huq
      have hspec := (updateNeighbor_spec hup) nbs (by simpa using hnbs)
      simpa [layerBound] using hspec.1
  · intro l'
    dsimp only
    rw [getD_set]
    split
    · rename_i hc
      rw [← hc.1]
      rw [List.length_map]
      calc ((searchLayer st.2.2 vector st.1 cfg.ef_construction l).take
            (if l = 0 then cfg.m_max_0 else cfg.m)).length
          ≤ (if l = 0 then cfg.m_max_0 else cfg.m) := List.length_take_le _ _
        _ = layerBound cfg l := rfl
    · exact hn l'

/-- A successful `insert` keeps the configuration and preserves the degree
bounds. -/
theorem insert_bounds {s : HnswIndex} {id : ℕ} {vector : List Q}
    {level : ℕ} {s' : HnswIndex} (h : s.insert id vector level = .ok s')
    (hb : ∀ p ∈ s.nodes, ∀ l' : ℕ,
      (p.2.neighbors.getD l' []).length ≤ layerBound s.config l') :
    s'.config = s.config ∧
    ∀ p ∈ s'.nodes, ∀ l' : ℕ,
      (p.2.neighbors.getD l' []).length ≤ layerBound s.config l' := by
  simp only [HnswIndex.insert] at h
  split at h
  · exact absurd h (by simp)
  · split at h
    · rename_i hep
      injection h with hinj
      subst hinj
      refine ⟨rfl, ?_⟩
      intro p hp l'
      rcases mem_tableInsert hp with hnew | hold
      · subst hnew
        simp only [replicate_getD]
        simp
      · exact hb p hold l'
    · rename_i ep0 hep
      split at h
      · exact absurd h (by simp)
      · rename_i curr newNbrs tbl hfold
        have hP := foldlM_option_inv (insertLayerStep s.config id vector)
          (fun _ st => (∀ p ∈ st.2.2, ∀ l' : ℕ,
            (p.2.neighbors.getD l' []).length ≤ layerBound s.config l') ∧
            ∀ l' : ℕ, (st.2.1.getD l' []).length ≤ layerBound s.config l')
          (fun l ls st st' hstep hPst =>
            insertLayerStep_bounds hstep hPst.1 hPst.2)
          (insertLayers level s.max_layer) _ (curr, newNbrs, tbl) hfold
          ⟨hb, fun l' => by simp [replicate_getD]⟩
        have hnodes : ∀ p ∈ tableInsert tbl id
            { id := id, vector := vector, neighbors := newNbrs }, ∀ l' : ℕ,
            (p.2.neighbors.getD l' []).length ≤ layerBound s.config l' := by
          intro p hp l'
          rcases mem_tableInsert hp with hnew | hold
          · subst hnew
            exact hP.2 l'
          · exact hP.1 p hold l'
        split at h
        · injection h with hinj
          subst hinj
          exact ⟨rfl, hnodes⟩
        · injection h with hinj
          subst hinj
          exact ⟨rfl, hnodes⟩

/-- `insertAll` keeps the configuration and preserves the degree bounds. -/
theorem insertAll_bounds :
    ∀ (ops : InsertOps) (s s' : HnswIndex), insertAll s ops = .ok s' →
      (∀ p ∈ s.nodes, ∀ l' : ℕ,
        (p.2.neighbors.getD l' []).length ≤ layerBound s.config l') →
      s'.config = s.config ∧
      ∀ p ∈ s'.nodes, ∀ l' : ℕ,
        (p.2.neighbors.getD l' []).length ≤ layerBound s.config l' := by
  intro ops
  induction ops with
  | nil =>
    intro s s' h hb
    simp only [insertAll] at h
    have hinj : s = s' := by injection h
    subst hinj
    exact ⟨rfl, hb⟩
  | cons op ops ih =>
    intro s s' h hb
    simp only [insertAll] at h
    split at h
    · rename_i s₁ hins
      have h₁ := insert_bounds hins hb
      have h₂ := ih s₁ s' h (by rw [h₁.1]; exact h₁.2)
      rw [h₁.1] at h₂
      exact h₂
    · exact absurd h (by simp)
    · exact absurd h (by simp)

/-- C6: after every finite sequence of successful inserts starting from the
empty index, every node's neighbor list at layer `ℓ` has length at most
`m_max_0` when `ℓ = 0` and at most `m` otherwise. -/
theorem insert_preserves_degree_bounds (cfg : HnswConfig) (ops : InsertOps)
    (s : HnswIndex) (h : insertAll (HnswIndex.new cfg) ops = .ok s) :
    ∀ p ∈ s.nodes, ∀ l : ℕ,
      (p.2.neighbors.getD l []).length ≤
        (if l = 0 then cfg.m_max_0 else cfg.m) := by
  have hres := insertAll_bounds ops (HnswIndex.new cfg) s h
    (by intro p hp; simp [HnswIndex.new] at hp)
  intro p hp l
  simpa [layerBound, HnswIndex.new] using hres.2 p hp l

/-- Witness for C6 on a two-insert trace. -/
theorem insert_preserves_degree_bounds_witness :
    insertAll (HnswIndex.new exC6S.config) [(1, [1], 0), (2, [1], 0)] =
      .ok exC6S ∧
    (2, HnswNode.mk 2 [1] [[1]]) ∈ exC6S.nodes ∧
    ((HnswNode.mk 2 [1] [[1]]).neighbors.getD 0 []).length ≤
      (if 0 = 0 then exC6S.config.m_max_0 else exC6S.config.m) :=
  ⟨by decide, by decide,
    insert_preserves_degree_bounds exC6S.config [(1, [1], 0), (2, [1], 0)]
      exC6S (by decide) (2, HnswNode.mk 2 [1] [[1]]) (by decide) 0⟩

/-! ### Search soundness (C10) -/

/-- `pop` on a nonempty heap always succeeds. -/
theorem heapPop_cons_ne_none (le : Candidate → Candidate → Bool)
    (p : Candidate) (ps : List Candidate) : heapPop le (p :: ps) ≠ none := by
  unfold heapPop
  split
  · rename_i heq
    simp at heq
  · dsimp only
    split <;> simp

/-- One neighbor step preserves the frontier invariant: the found heap's ids
are distinct, visited and table keys. -/
theorem processNeighbor_inv (t : NodeTable) (q : List Q) (ef : ℕ) (nid : ℕ)
    (st : List ℕ × List Candidate × List Candidate)
    (hnid : nid ∈ tableKeys t)
    (hP : ((st.2.2.map Candidate.id).Nodup ∧
      ∀ c ∈ st.2.2, c.id ∈ st.1 ∧ c.id ∈ tableKeys t)) :
    (((processNeighbor t q ef st nid).2.2.map Candidate.id).Nodup ∧
      ∀ c ∈ (processNeighbor t q ef st nid).2.2,
        c.id ∈ (processNeighbor t q ef st nid).1 ∧ c.id ∈ tableKeys t) := by
  unfold processNeighbor
  by_cases hmem : nid ∈ st.1
  · rw [if_pos hmem]
    exact hP
  · rw [if_neg hmem]
    cases hhd : st.2.2.head? with
    | none => exact ⟨hP.1, fun c hc => ⟨List.mem_cons_of_mem _ (hP.2 c hc).1,
        (hP.2 c hc).2⟩⟩
    | some furthest =>
      dsimp only
      split
      · -- the push (and possible evict) branch
        have hpush := heapPush_perm leMax st.2.2
          ⟨nid, get_distance t q nid⟩
        have hpushids : ((heapPush leMax st.2.2
            ⟨nid, get_distance t q nid⟩).map Candidate.id).Perm
            ((st.2.2.map Candidate.id) ++ [nid]) := by
          have := hpush.map Candidate.id
          simpa using this
        have hnodup1 : ((heapPush leMax st.2.2
            ⟨nid, get_distance t q nid⟩).map Candidate.id).Nodup := by
          refine hpushids.nodup_iff.mpr ?_
          rw [List.nodup_append]
          refine ⟨hP.1, by simp, ?_⟩
          intro x hx
          simp only [List.mem_singleton]
          intro hxnid
          obtain ⟨c, hc, hcid⟩ := List.mem_map.mp hx
          refine hmem ?_
          have hin : c.id ∈ st.1 := (hP.2 c hc).1
          rw [hcid, hxnid] at hin
          exact hin
        have hmem1 : ∀ c ∈ heapPush leMax st.2.2 ⟨nid, get_distance t q nid⟩,
            c.id ∈ nid :: st.1 ∧ c.id ∈ tableKeys t := by
          intro c hc
          rcases List.mem_append.mp (hpush.mem_iff.mp hc) with hc' | hc'
          · exact ⟨List.mem_cons_of_mem _ (hP.2 c hc').1, (hP.2 c hc').2⟩
          · have : c = ⟨nid, get_distance t q nid⟩ := by simpa using hc'
            subst this
            exact ⟨List.mem_cons_self _ _, hnid⟩
        split
        · -- eviction
          cases hfound : heapPush leMax st.2.2 ⟨nid, get_distance t q nid⟩ with
          | nil => simp [hfound, heapPop]
          | cons p ps =>
            cases hpop : heapPop leMax (p :: ps) with
            | none => exact absurd hpop (heapPop_cons_ne_none leMax p ps)
            | some r =>
              dsimp only
              obtain ⟨c0, rest⟩ := r
              have hpp := heapPop_some_perm leMax p ps c0 rest hpop
              rw [hfound] at hnodup1 hmem1
              constructor
              · have hidsperm := hpp.2.map Candidate.id
                refine hidsperm.nodup_iff.mpr ?_
                have h2 : (Candidate.id p :: ps.map Candidate.id).Nodup := by
                  simpa using hnodup1
                exact h2.of_cons
              · intro c hc
                exact hmem1 c (List.mem_cons_of_mem _ (hpp.2.mem_iff.mp hc))
        · exact ⟨hnodup1, hmem1⟩
      · exact ⟨hP.1, fun c hc => ⟨List.mem_cons_of_mem _ (hP.2 c hc).1,
          (hP.2 c hc).2⟩⟩

/-- The neighbor fold preserves the frontier invariant. -/
theorem processNeighbor_foldl_inv (t : NodeTable) (q : List Q) (ef : ℕ) :
    ∀ (nbrs : List ℕ), (∀ n ∈ nbrs, n ∈ tableKeys t) →
      ∀ (st : List ℕ × List Candidate × List Candidate),
        ((st.2.2.map Candidate.id).Nodup ∧
          ∀ c ∈ st.2.2, c.id ∈ st.1 ∧ c.id ∈ tableKeys t) →
        (((nbrs.foldl (processNeighbor t q ef) st).2.2.map
            Candidate.id).Nodup ∧
          ∀ c ∈ (nbrs.foldl (processNeighbor t q ef) st).2.2,
            c.id ∈ (nbrs.foldl (processNeighbor t q ef) st).1 ∧
            c.id ∈ tableKeys t) := by
  intro nbrs
  induction nbrs with
  | nil => intro _ st hP; exact hP
  | cons n ns ih =>
    intro hn st hP
    rw [List.foldl_cons]
    exact ih (fun m hm => hn m (by simp [hm])) _
      (processNeighbor_inv t q ef n st (hn n (by simp)) hP)

/-- The main search loop preserves the frontier invariant, for any fuel. -/
theorem searchLayerLoop_inv (t : NodeTable) (q : List Q) (ef layer : ℕ)
    (hclosed : ∀ p ∈ t, ∀ nid ∈ p.2.neighbors.getD layer [],
      nid ∈ tableKeys t) :
    ∀ (fuel : ℕ) (vis : List ℕ) (cands found : List Candidate),
      ((found.map Candidate.id).Nodup ∧
        ∀ c ∈ found, c.id ∈ vis ∧ c.id ∈ tableKeys t) →
      (((searchLayerLoop t q ef layer fuel vis cands found).map
          Candidate.id).Nodup ∧
        ∀ c ∈ searchLayerLoop t q ef layer fuel vis cands found,
          c.id ∈ tableKeys t) := by
  intro fuel
  induction fuel with
  | zero =>
    intro vis cands found hP
    exact ⟨hP.1, fun c hc => (hP.2 c hc).2⟩
  | succ fuel ih =>
    intro vis cands found hP
    rw [searchLayerLoop]
    cases hpop : heapPop leMin cands with
    | none => exact ⟨hP.1, fun c hc => (hP.2 c hc).2⟩
    | some r =>
      obtain ⟨current, cands'⟩ := r
      dsimp only
      cases hhd : found.head? with
      | none => exact ⟨hP.1, fun c hc => (hP.2 c hc).2⟩
      | some furthest =>
        dsimp only
        split
        · exact ⟨hP.1, fun c hc => (hP.2 c hc).2⟩
        · cases hlk : List.lookup current.id t with
          | none => exact ih vis cands' found hP
          | some node =>
            dsimp only
            split
            · refine ih _ _ _ ?_
              exact processNeighbor_foldl_inv t q ef
                (node.neighbors.getD layer [])
                (hclosed (current.id, node) (lookup_mem hlk)) _ hP
            · exact ih vis cands' found hP

/-- `search_layer` returns candidates with pairwise-distinct ids, all of
them keys of the node table, provided the entry point is a key and the
traversed layer's neighbor lists are closed over the table. -/
theorem searchLayer_ids (t : NodeTable) (q : List Q) (ep : ℕ)
    (ef layer : ℕ) (hep : ep ∈ tableKeys t)
    (hclosed : ∀ p ∈ t, ∀ nid ∈ p.2.neighbors.getD layer [],
      nid ∈ tableKeys t) :
    ((searchLayer t q ep ef layer).map Candidate.id).Nodup ∧
      ∀ c ∈ searchLayer t q ep ef layer, c.id ∈ tableKeys t := by
  unfold searchLayer
  refine searchLayerLoop_inv t q ef layer hclosed _ [ep] _ _ ?_
  constructor
  · simp [heapPush, siftUp, siftUpAux]
  · intro c hc
    have : c = ⟨ep, get_distance t q ep⟩ := by
      simpa [heapPush, siftUp, siftUpAux] using hc
    subst this
    exact ⟨by simp, hep⟩

/-- The greedy pass keeps the entry point among the table keys. -/
theorem zoomPass_mem (t : NodeTable) (q : List Q) (l : ℕ)
    (hcl : NeighborsClosed t) (st : ℕ × Q) (hst : st.1 ∈ tableKeys t) :
    (zoomPass t q l st).1.1 ∈ tableKeys t := by
  unfold zoomPass
  cases hlk : List.lookup st.1 t with
  | none => exact hst
  | some node =>
    dsimp only
    split
    · have hn : ∀ nid ∈ node.neighbors.getD l [], nid ∈ tableKeys t :=
        hcl (st.1, node) (lookup_mem hlk) l
      have key : ∀ (nbrs : List ℕ), (∀ n ∈ nbrs, n ∈ tableKeys t) →
          ∀ (acc : (ℕ × Q) × Bool), acc.1.1 ∈ tableKeys t →
            (nbrs.foldl
              (fun acc nid =>
                if get_distance t q nid < acc.1.2 then ((nid, get_distance t q nid), true)
                else acc) acc).1.1 ∈ tableKeys t := by
        intro nbrs
        induction nbrs with
        | nil => intro _ acc hacc; exact hacc
        | cons n ns ihn =>
          intro hns acc hacc
          rw [List.foldl_cons]
          refine ihn (fun m hm => hns m (by simp [hm])) _ ?_
          split
          · exact hns n (by simp)
          · exact hacc
      exact key _ hn (st, false) hst
    · exact hst

/-- The greedy loop keeps the entry point among the table keys. -/
theorem zoomLoop_mem (t : NodeTable) (q : List Q) (l : ℕ)
    (hcl : NeighborsClosed t) :
    ∀ (fuel : ℕ) (st : ℕ × Q), st.1 ∈ tableKeys t →
      (zoomLoop t q l fuel st).1 ∈ tableKeys t := by
  intro fuel
  induction fuel with
  | zero => intro st hst; exact hst
  | succ fuel ih =>
    intro st hst
    rw [zoomLoop]
    split
    · exact ih _ (zoomPass_mem t q l hcl st hst)
    · exact zoomPass_mem t q l hcl st hst

/-- `zoomAt` keeps the entry point among the table keys. -/
theorem zoomAt_mem (t : NodeTable) (q : List Q) (l : ℕ)
    (hcl : NeighborsClosed t) (st : ℕ × Q) (hst : st.1 ∈ tableKeys t) :
    (zoomAt t q l st).1 ∈ tableKeys t :=
  zoomLoop_mem t q l hcl _ st hst

/-- A fold of `zoomAt` over any layer list keeps the entry point among the
table keys. -/
theorem zoomFold_mem (t : NodeTable) (q : List Q)
    (hcl : NeighborsClosed t) :
    ∀ (layers : List ℕ) (st : ℕ × Q), st.1 ∈ tableKeys t →
      (layers.foldl (fun st l => zoomAt t q l st) st).1 ∈ tableKeys t := by
  intro layers
  induction layers with
  | nil => intro st hst; exact hst
  | cons l ls ih =>
    intro st hst
    rw [List.foldl_cons]
    exact ih _ (zoomAt_mem t q l hcl st hst)

/-- Applying neighbor updates never changes the key set (every update
rewrites an existing node in place). -/
theorem applyUpdates_keys (l : ℕ) :
    ∀ (us : List (ℕ × Option (List ℕ))) (t : NodeTable),
      tableKeys (us.foldl
        (fun t u =>
          match u.2 with
          | none => t
          | some nbs =>
            match List.lookup u.1 t with
            | none => t
            | some node =>
              tableInsert t u.1
                { node with neighbors := node.neighbors.set l nbs }) t) =
      tableKeys t := by
  intro us
  induction us with
  | nil => intro t; rfl
  | cons u us ih =>
    intro t
    rw [List.foldl_cons]
    cases hu2 : u.2 with
    | none => simpa [hu2] using ih t
    | some nbs =>
      cases hlk : List.lookup u.1 t with
      | none => simpa [hu2, hlk] using ih t
      | some node =>
        simp only [hu2, hlk]
        rw [ih]
        exact tableKeys_tableInsert_of_mem t u.1 _ (mem_keys_of_lookup hlk)

/-- Applying neighbor updates preserves any per-node predicate that is
stable under each update's list rewrite. -/
theorem applyUpdates_pres (l : ℕ) (Pnode : HnswNode → Prop) :
    ∀ (us : List (ℕ × Option (List ℕ))) (t : NodeTable),
      (∀ p ∈ t, Pnode p.2) →
      (∀ u ∈ us, ∀ nbs, u.2 = some nbs → ∀ node, Pnode node →
        Pnode { node with neighbors := node.neighbors.set l nbs }) →
      ∀ p ∈ us.foldl
          (fun t u =>
            match u.2 with
            | none => t
            | some nbs =>
              match List.lookup u.1 t with
              | none => t
              | some node =>
                tableInsert t u.1
                  { node with neighbors := node.neighbors.set l nbs }) t,
        Pnode p.2 := by
  intro us
  induction us with
  | nil => intro t ht _ p hp; exact ht p hp
  | cons u us ih =>
    intro t ht hus
    rw [List.foldl_cons]
    refine ih _ ?_ (fun u' hu' => hus u' (by simp [hu']))
    cases hu2 : u.2 with
    | none => simpa [hu2] using ht
    | some nbs =>
      cases hlk : List.lookup u.1 t with
      | none => simpa [hu2, hlk] using ht
      | some node =>
        simp only [hu2, hlk]
        intro p hp
        rcases mem_tableInsert hp with hnew | hold
        · subst hnew
          exact hus u (by simp) nbs hu2 node (ht (u.1, node) (lookup_mem hlk))
        · exact ht p hold

/-- One layer of layered insertion preserves the closure invariant. -/
theorem insertLayerStep_closure {cfg : HnswConfig} {id : ℕ}
    {vector : List Q} {st st' : ℕ × List (List ℕ) × NodeTable} {l : ℕ}
    {ls : List ℕ} {K : List ℕ}
    (h : insertLayerStep cfg id vector st l = some st')
    (hP : LayerLoopInv K id (l :: ls) st) (hpw : ∀ l' ∈ ls, l' < l) :
    LayerLoopInv K id ls st' := by
  obtain ⟨hK, hep, hrem, hweak, hnew⟩ := hP
  have hcl : ∀ p ∈ st.2.2, ∀ nid ∈ p.2.neighbors.getD l [],
      nid ∈ tableKeys st.2.2 := by
    intro p hp nid hnid
    rw [hK]
    exact hrem l (by simp) p hp nid hnid
  have hfr := searchLayer_ids st.2.2 vector st.1 cfg.ef_construction l
    (by rw [hK]; exact hep) hcl
  have hfrK : ∀ c ∈ searchLayer st.2.2 vector st.1 cfg.ef_construction l,
      c.id ∈ K := by
    intro c hc
    rw [← hK]
    exact hfr.2 c hc
  have hidsK : ∀ x ∈ ((searchLayer st.2.2 vector st.1 cfg.ef_construction
      l).take (if l = 0 then cfg.m_max_0 else cfg.m)).map (·.id), x ∈ K := by
    intro x hx
    obtain ⟨c, hc, hcid⟩ := List.mem_map.mp hx
    rw [← hcid]
    exact hfrK c (List.mem_of_mem_take hc)
  simp only [insertLayerStep] at h
  rw [Option.map_eq_some'] at h
  obtain ⟨us, hus, hst'⟩ := h
  subst hst'
  have hpayload : ∀ u ∈ us, ∀ nbs, u.2 = some nbs →
      ∀ x ∈ nbs, x ∈ K ∨ x = id := by
    intro u hu nbs hnbs
    obtain ⟨nid, _hnid, hf⟩ := mapM_option_mem hus u hu
    cases hup : updateNeighbor st.2.2 id
        (if l = 0 then cfg.m_max_0 else cfg.m) l nid with
    | none => rw [hup] at hf; exact absurd hf (by simp)
    | some u2 =>
      rw [hup] at hf
      have huq : (nid, u2) = u := by simpa using hf
      subst huq
      have hspec := (updateNeighbor_spec hup) nbs (by simpa using hnbs)
      intro x hx
      rcases hspec.2 x hx with ⟨node, hlk, hxin⟩ | hxid
      · exact hweak (nid, node) (lookup_mem hlk) l x hxin
      · exact Or.inr hxid
  refine ⟨?_, ?_, ?_, ?_, ?_⟩
  · rw [applyUpdates_keys]
    exact hK
  · dsimp only
    cases hhd : (((searchLayer st.2.2 vector st.1 cfg.ef_construction
        l).take (if l = 0 then cfg.m_max_0 else cfg.m)).map (·.id)).head? with
    | none => exact hep
    | some closest =>
      exact hidsK closest (List.mem_of_mem_head? hhd)
  · intro l' hl' p hp nid hnid
    have := applyUpdates_pres l
      (fun node => ∀ l'' ∈ ls, ∀ nid ∈ node.neighbors.getD l'' [], nid ∈ K)
      us st.2.2
      (fun p hp l'' hl'' => hrem l'' (by simp [hl'']) p hp)
      (fun u hu nbs hnbs node hnode l'' hl'' m hm => by
        rw [getD_set] at hm
        split at hm
        · rename_i hcond
          exact absurd hcond.1 (by have := hpw l'' hl''; omega)
        · exact hnode l'' hl'' m hm)
      p hp
    exact this l' hl' nid hnid
  · intro p hp l' nid hnid
    exact applyUpdates_pres l
      (fun node => ∀ l'' : ℕ, ∀ nid ∈ node.neighbors.getD l'' [],
        nid ∈ K ∨ nid = id)
      us st.2.2
      (fun p hp l'' m hm => hweak p hp l'' m hm)
      (fun u hu nbs hnbs node hnode l'' m hm => by
        rw [getD_set] at hm
        split at hm
        · rename_i hcond
          rcases hpayload u hu nbs hnbs m hm with hmK | hmid
          · exact Or.inl hmK
          · exact Or.inr hmid
        · exact hnode l'' m hm)
      p hp l' nid hnid
  · intro l' nid hnid
    dsimp only at hnid
    rw [getD_set] at hnid
    split at hnid
    · exact hidsK nid hnid
    · exact hnew l' nid hnid

/-- The layered-insertion layers are strictly descending. -/
theorem insertLayers_pairwise (level : ℕ) (maxL : ℤ) :
    (insertLayers level maxL).Pairwise (· > ·) := by
  unfold insertLayers descRange
  split
  · rw [List.pairwise_reverse]
    exact List.pairwise_lt_range' _ _
  · exact List.Pairwise.nil

/-- A successful `insert` preserves well-formedness. -/
theorem insert_wf {s : HnswIndex} {id : ℕ} {vector : List Q} {level : ℕ}
    {s' : HnswIndex} (h : s.insert id vector level = .ok s')
    (hwf : WellFormed s) : WellFormed s' := by
  obtain ⟨hempty, hentry, hclosed⟩ := hwf
  simp only [HnswIndex.insert] at h
  split at h
  · exact absurd h (by simp)
  · split at h
    · rename_i hep
      injection h with hinj
      subst hinj
      have hnil : s.nodes = [] := hempty hep
      refine ⟨by simp, ?_, ?_⟩
      · intro e he
        simp only [Option.some.injEq] at he
        subst he
        exact mem_tableKeys_tableInsert _ _ _
      · intro p hp l' nid hnid
        rw [hnil] at hp
        have hp' : p ∈ tableInsert [] id
            { id := id, vector := vector,
              neighbors := List.replicate (level + 1) [] } := hp
        rcases mem_tableInsert hp' with hnew | hold
        · subst hnew
          rw [replicate_getD] at hnid
          simp at hnid
        · simp at hold
    · rename_i ep0 hep
      split at h
      · exact absurd h (by simp)
      · rename_i curr newNbrs tbl hfold
        have hzoom : ((zoomLayers level s.max_layer).foldl
            (fun st l => zoomAt s.nodes vector l st)
            (ep0, get_distance s.nodes vector ep0)).1 ∈
            tableKeys s.nodes :=
          zoomFold_mem s.nodes vector hclosed _ _ (hentry ep0 hep)
        have hP := foldlM_option_inv (insertLayerStep s.config id vector)
          (fun ls st => ls.Pairwise (· > ·) ∧
            LayerLoopInv (tableKeys s.nodes) id ls st)
          (fun l ls st st' hstep hPst =>
            ⟨hPst.1.of_cons,
              insertLayerStep_closure hstep hPst.2
                (fun l' hl' => (List.pairwise_cons.mp hPst.1).1 l' hl')⟩)
          (insertLayers level s.max_layer) _ (curr, newNbrs, tbl) hfold
          ⟨insertLayers_pairwise level s.max_layer, rfl, hzoom,
            (fun l' _ p hp nid hnid => hclosed p hp l' nid hnid),
            (fun p hp l' nid hnid => Or.inl (hclosed p hp l' nid hnid)),
            (fun l' nid hnid => by rw [replicate_getD] at hnid; simp at hnid)⟩
        obtain ⟨-, hKf, _hepf, _hremf, hweakf, hnewf⟩ := hP
        have hclosed' : ∀ p ∈ tableInsert tbl id
            { id := id, vector := vector, neighbors := newNbrs },
            ∀ l' : ℕ, ∀ nid ∈ p.2.neighbors.getD l' [],
              nid ∈ tableKeys (tableInsert tbl id
                { id := id, vector := vector, neighbors := newNbrs }) := by
          intro p hp l' nid hnid
          rcases mem_tableInsert hp with hnew | hold
          · subst hnew
            have := hnewf l' nid hnid
            rw [← hKf] at this
            exact tableKeys_subset_tableInsert _ _ _ nid this
          · rcases hweakf p hold l' nid hnid with hK | hid
            · rw [← hKf] at hK
              exact tableKeys_subset_tableInsert _ _ _ nid hK
            · subst hid
              exact mem_tableKeys_tableInsert _ _ _
        split at h
        · injection h with hinj
          subst hinj
          refine ⟨by simp, ?_, hclosed'⟩
          intro e he
          simp only [Option.some.injEq] at he
          subst he
          exact mem_tableKeys_tableInsert _ _ _
        · injection h with hinj
          subst hinj
          refine ⟨?_, ?_, hclosed'⟩
          · intro habs
            rw [hep] at habs
            exact absurd habs (by simp)
          · intro e he
            rw [hep] at he
            simp only [Option.some.injEq] at he
            subst he
            have := hentry ep0 hep
            rw [← hKf] at this
            exact tableKeys_subset_tableInsert _ _ _ ep0 this

/-- `insertAll` preserves well-formedness. -/
theorem insertAll_wf :
    ∀ (ops : InsertOps) (s s' : HnswIndex), insertAll s ops = .ok s' →
      WellFormed s → WellFormed s' := by
  intro ops
  induction ops with
  | nil =>
    intro s s' h hwf
    simp only [insertAll] at h
    injection h with hinj
    subst hinj
    exact hwf
  | cons op ops ih =>
    intro s s' h hwf
    simp only [insertAll] at h
    split at h
    · rename_i s₁ hins
      exact ih s₁ s' h (insert_wf hins hwf)
    · exact absurd h (by simp)
    · exact absurd h (by simp)

/-- C10: on every index built by successful inserts, `search` with a query
of the configured dimension succeeds and returns at most `k` results with
pairwise-distinct ids, every returned id being a key of the node table. -/
theorem search_results_sound (cfg : HnswConfig) (ops : InsertOps)
    (s : HnswIndex) (h : insertAll (HnswIndex.new cfg) ops = .ok s)
    (query : List Q) (hq : query.length = s.config.dimension) (k ef : ℕ) :
    ∃ res, s.search query k ef = .ok res ∧ res.length ≤ k ∧
      (res.map SearchResult.id).Nodup ∧
      ∀ r ∈ res, r.id ∈ tableKeys s.nodes := by
  have hwf : WellFormed s := insertAll_wf ops _ s h
    ⟨fun _ => rfl, fun e he => by simp [HnswIndex.new] at he,
      fun p hp => by simp [HnswIndex.new] at hp⟩
  obtain ⟨hempty, hentry, hclosed⟩ := hwf
  simp only [HnswIndex.search]
  rw [if_neg (fun hne => hne hq)]
  cases hep : s.entry_point with
  | none => exact ⟨[], rfl, by simp, by simp, by simp⟩
  | some ep0 =>
    dsimp only
    have hz : ((if 1 ≤ s.max_layer then descRange 1 s.max_layer.toNat
        else []).foldl (fun st l => zoomAt s.nodes query l st)
        (ep0, get_distance s.nodes query ep0)).1 ∈ tableKeys s.nodes :=
      zoomFold_mem s.nodes query hclosed _ _ (hentry ep0 hep)
    have hids := searchLayer_ids s.nodes query _ (max ef k) 0 hz
      (fun p hp nid hnid => hclosed p hp 0 nid hnid)
    refine ⟨_, rfl, ?_, ?_, ?_⟩
    · exact List.length_take_le _ _
    · have h1 := (sortByScoreDesc_perm
        ((searchLayer s.nodes query
          ((if 1 ≤ s.max_layer then descRange 1 s.max_layer.toNat
            else []).foldl (fun st l => zoomAt s.nodes query l st)
            (ep0, get_distance s.nodes query ep0)).1 (max ef k) 0).map
          fun c => SearchResult.mk c.id (1 - c.distance))).map SearchResult.id
      rw [List.map_map] at h1
      have hperm : ((sortByScoreDesc _).map SearchResult.id).Perm
          ((searchLayer s.nodes query
            ((if 1 ≤ s.max_layer then descRange 1 s.max_layer.toNat
              else []).foldl (fun st l => zoomAt s.nodes query l st)
              (ep0, get_distance s.nodes query ep0)).1 (max ef k) 0).map
            Candidate.id) := h1
      have hnodup := hperm.nodup_iff.mpr hids.1
      rw [List.map_take]
      exact (List.take_sublist _ _).nodup hnodup
    · intro r hr
      have hr' := List.mem_of_mem_take hr
      have hr'' := (sortByScoreDesc_perm _).mem_iff.mp hr'
      obtain ⟨c, hc, hcf⟩ := List.mem_map.mp hr''
      have hcid := hids.2 c hc
      rw [← hcf]
      exact hcid

/-- Witness for C10 on a two-insert index and the query `[1]`. -/
theorem search_results_sound_witness :
    [(1 : Q)].length = exC6S.config.dimension ∧
    ∃ res, exC6S.search [1] 1 10 = .ok res ∧ res.length ≤ 1 ∧
      (res.map SearchResult.id).Nodup ∧
      ∀ r ∈ res, r.id ∈ tableKeys exC6S.nodes :=
  ⟨by decide,
    search_results_sound exC2Config [(1, [1], 0), (2, [1], 0)] exC6S
      (by decide) [1] (by decide) 1 10⟩

end Vexlake
